import Mathlib

/-!
Verification of the cascade-protocol reconciliation engine.

This file gives a shallow embedding of the Rust sources (`key.rs`,
`shuffle.rs`, `shuffled_key.rs`, `block.rs`, `iteration.rs`,
`algorithm.rs`) and proves the specified properties about it.

Conventions of the embedding:
* `u32`/`u64`/`usize` values are `Nat`, with an explicit `% 2 ^ w`
  where overflow can occur;
* `u8` parities are `Nat` values that are provably `0` or `1`;
* `Option` models Rust `Option`; a Rust `panic!`/`expect` makes the
  embedded function return `none`;
* interior mutability (`RefCell`) is modelled by explicit state
  passing: functions take the current noisy key and return the new one;
* the external `rand` crate is modelled by an abstract `RngModel`
  whose shuffling functions are only assumed to permute their input.
-/

set_option maxRecDepth 8000

namespace Cascade

/-! ### List helpers for the index-map construction -/

/-- Value stored at index `j` after `l.set i v`, when `j ≠ i`. -/
theorem getD_set_ne (l : List Nat) (i j v d : Nat) (h : i ≠ j) :
    (l.set i v).getD j d = l.getD j d := by
  induction l generalizing i j with
  | nil => simp
  | cons a t ih =>
    cases i with
    | zero =>
      cases j with
      | zero => exact absurd rfl h
      | succ j => simp [List.getD]
    | succ i =>
      cases j with
      | zero => simp [List.getD]
      | succ j =>
        simp only [List.set, List.getD_cons_succ]
        exact ih i j (fun hij => h (by omega))

/-- Value stored at index `i` after `l.set i v`, when `i` is in bounds. -/
theorem getD_set_self (l : List Nat) (i v d : Nat) (h : i < l.length) :
    (l.set i v).getD i d = v := by
  induction l generalizing i with
  | nil => simp at h
  | cons a t ih =>
    cases i with
    | zero => simp [List.getD]
    | succ i =>
      simp only [List.set, List.getD_cons_succ]
      exact ih i (by simpa using h)

/-- Setting an index does not change the length. -/
theorem length_set_eq (l : List Nat) (i v : Nat) : (l.set i v).length = l.length :=
  List.length_set l i v

/-! ### Shuffle (`shuffle.rs`)

The `rand` crate is external to the repository; `RngModel` packages the
three ways the source consumes it: `stdShuffle seed l` stands for
`l.shuffle(&mut StdRng::seed_from_u64(seed))`, `threadShuffle l` for
`l.shuffle(&mut rand::thread_rng())`, and `entropy` for
`rand::thread_rng().gen()`.  The only fact the development assumes
about them (where needed, as an explicit hypothesis) is that shuffling
permutes the list, which is the documented contract of
`SliceRandom::shuffle`. -/

structure RngModel where
  stdShuffle : Nat → List Nat → List Nat
  threadShuffle : List Nat → List Nat
  entropy : Nat

/-- A shuffle, as in `shuffle.rs`: a permutation of the bit indices of a
key, stored as the pair of mutually inverse index maps. -/
structure Shuffle where
  iterationNr : Nat
  nrBits : Nat
  hasSeed : Bool
  seed : Nat
  origToShuffledMap : List Nat
  shuffledToOrigMap : List Nat

/-- The reverse-map construction at the end of `Shuffle::initialize`:
`for (shuffled_bit_nr, &orig_bit_nr) in shuffled_to_orig_map.iter().enumerate()
 { orig_to_shuffled_map[orig_bit_nr] = shuffled_bit_nr }`,
starting from the `vec![0; nr_bits]` created by the constructors. -/
def buildOrigToShuffled (shuffledToOrig : List Nat) (nrBits : Nat) : List Nat :=
  (shuffledToOrig.enum).foldl (fun acc p => acc.set p.2 p.1) (List.replicate nrBits 0)

/-- Body of `Shuffle::initialize`: start from the identity map
`0, 1, …, nr_bits - 1`; when the iteration number is not `1`, optionally
draw a seed from the thread RNG, then shuffle with the seeded RNG (if a
seed is present) or the thread RNG; finally build the reverse map. -/
def Shuffle.setup (rng : RngModel) (iterationNr nrBits : Nat) (hasSeed : Bool)
    (seed : Nat) (assignSeed : Bool) : Shuffle :=
  let identMap := List.range nrBits
  if iterationNr ≠ 1 then
    let hasSeed2 := hasSeed || assignSeed
    let seed2 := if assignSeed then rng.entropy else seed
    let s2o := if hasSeed2 then rng.stdShuffle seed2 identMap else rng.threadShuffle identMap
    { iterationNr := iterationNr, nrBits := nrBits, hasSeed := hasSeed2, seed := seed2,
      origToShuffledMap := buildOrigToShuffled s2o nrBits, shuffledToOrigMap := s2o }
  else
    { iterationNr := iterationNr, nrBits := nrBits, hasSeed := hasSeed, seed := seed,
      origToShuffledMap := buildOrigToShuffled identMap nrBits, shuffledToOrigMap := identMap }

/-- `Shuffle::new` (the body of `new_random_shuffle`): fields start as
`has_seed = false`, `seed = 0`, then `initialize(assign_seed)` runs. -/
def Shuffle.newRandom (rng : RngModel) (iterationNr nrBits : Nat) (assignSeed : Bool) : Shuffle :=
  Shuffle.setup rng iterationNr nrBits false 0 assignSeed

/-- `Shuffle::from_seed` (the body of `new_shuffle_from_seed`): fields
start as `has_seed = true` with the given seed, then `initialize(false)`
runs. -/
def Shuffle.fromSeed (rng : RngModel) (iterationNr nrBits seed : Nat) : Shuffle :=
  Shuffle.setup rng iterationNr nrBits true seed false

/-- `Shuffle::orig_to_shuffle`: plain vector lookup. -/
def Shuffle.origToShuffle (s : Shuffle) (origBitNr : Nat) : Nat :=
  s.origToShuffledMap.getD origBitNr 0

/-- `Shuffle::shuffle_to_orig`: plain vector lookup. -/
def Shuffle.shuffleToOrig (s : Shuffle) (shuffleBitNr : Nat) : Nat :=
  s.shuffledToOrigMap.getD shuffleBitNr 0

/-- `Shuffle::get_seed`. -/
def Shuffle.getSeed (s : Shuffle) : Nat := s.seed

/-! ### Correctness of the reverse-map construction -/

/-- Folding the writes of `buildOrigToShuffled` leaves positions that do
not occur in the written list untouched. -/
theorem foldl_set_not_mem (l : List (Nat × Nat)) (acc : List Nat) (x d : Nat)
    (hx : ∀ p ∈ l, p.2 ≠ x) :
    (l.foldl (fun a p => a.set p.2 p.1) acc).getD x d = acc.getD x d := by
  induction l generalizing acc with
  | nil => rfl
  | cons p t ih =>
    simp only [List.foldl_cons]
    rw [ih _ (fun q hq => hx q (List.mem_cons_of_mem p hq))]
    exact getD_set_ne _ _ _ _ _ (hx p (List.mem_cons_self p t))

/-- After the enumerated write loop, the position holding the `j`-th
element of a duplicate-free list has been set to `k + j`. -/
theorem foldl_set_enumFrom (l : List Nat) (k : Nat) (acc : List Nat)
    (hnd : l.Nodup) (j : Nat) (hj : j < l.length) (hb : l.getD j 0 < acc.length) :
    ((l.enumFrom k).foldl (fun a p => a.set p.2 p.1) acc).getD (l.getD j 0) 0 = k + j := by
  induction l generalizing k acc j with
  | nil => simp at hj
  | cons a t ih =>
    simp only [List.enumFrom, List.foldl_cons]
    cases j with
    | zero =>
      simp only [List.getD_cons_zero] at hb ⊢
      have hnotin : a ∉ t := (List.nodup_cons.mp hnd).1
      rw [foldl_set_not_mem]
      · exact getD_set_self _ _ _ _ hb
      · intro p hp
        have hmem : p.2 ∈ t := by
          obtain ⟨h1, h2, h3⟩ := List.mem_enumFrom hp
          exact h3 ▸ List.getElem_mem _
        exact fun h => hnotin (h ▸ hmem)
    | succ j =>
      rw [List.getD_cons_succ] at hb ⊢
      rw [ih (k + 1) (acc.set a k) (List.nodup_cons.mp hnd).2 j (by simpa using hj)
        (by rw [length_set_eq]; exact hb)]
      omega

/-- Inverse-map lemma: if `l` is a permutation of `0, …, n-1` then the
reverse map built by `Shuffle::initialize` inverts lookups into `l`. -/
theorem buildOrigToShuffled_getD (l : List Nat) (n : Nat) (h : l.Perm (List.range n))
    (j : Nat) (hj : j < n) :
    (buildOrigToShuffled l n).getD (l.getD j 0) 0 = j := by
  have hlen : l.length = n := by simpa using h.length_eq
  have hnd : l.Nodup := h.nodup_iff.mpr (List.nodup_range n)
  have hmem : l.getD j 0 ∈ l := by
    rw [List.getD_eq_getElem l 0 (hlen ▸ hj)]
    exact List.getElem_mem _
  have hbound : l.getD j 0 < n := List.mem_range.mp (h.subset hmem)
  have := foldl_set_enumFrom l 0 (List.replicate n 0) hnd j (hlen ▸ hj)
    (by simpa using hbound)
  simpa [buildOrigToShuffled, List.enum] using this

/-- Membership in a permutation of `range n` gives a position with that
value. -/
theorem exists_pos_of_perm_range (l : List Nat) (n : Nat) (h : l.Perm (List.range n))
    (i : Nat) (hi : i < n) : ∃ j, j < n ∧ l.getD j 0 = i := by
  have hlen : l.length = n := by simpa using h.length_eq
  have hmem : i ∈ l := h.symm.subset (List.mem_range.mpr hi)
  obtain ⟨j, hj, hval⟩ := List.mem_iff_getElem.mp hmem
  exact ⟨j, hlen ▸ hj, by rw [List.getD_eq_getElem l 0 hj]; exact hval⟩

/-- Claim C5 core: the two index maps of any shuffle produced by
`Shuffle::initialize` are mutually inverse bijections of `[0, n)`,
provided the external RNG shuffles are permutations (the contract of
`SliceRandom::shuffle`).  Both public constructors
(`new_random_shuffle` and `new_shuffle_from_seed`) produce their
shuffles through this body, so this covers every constructed shuffle. -/
theorem shuffle_bijectivity (rng : RngModel)
    (hstd : ∀ s l, (rng.stdShuffle s l).Perm l)
    (hthr : ∀ l, (rng.threadShuffle l).Perm l)
    (it n : Nat) (hs as : Bool) (sd : Nat) (i : Nat) (hi : i < n) :
    (Shuffle.setup rng it n hs sd as).shuffleToOrig
        ((Shuffle.setup rng it n hs sd as).origToShuffle i) = i
  ∧ (Shuffle.setup rng it n hs sd as).origToShuffle
        ((Shuffle.setup rng it n hs sd as).shuffleToOrig i) = i
  ∧ (Shuffle.setup rng it n hs sd as).origToShuffle i < n
  ∧ (Shuffle.setup rng it n hs sd as).shuffleToOrig i < n := by
  have hperm : (Shuffle.setup rng it n hs sd as).shuffledToOrigMap.Perm (List.range n) := by
    simp only [Shuffle.setup]
    by_cases hit : it ≠ 1
    · rw [if_pos hit]
      dsimp only
      split
      · exact hstd _ _
      · exact hthr _
    · rw [if_neg hit]
  have ho2s : (Shuffle.setup rng it n hs sd as).origToShuffledMap
      = buildOrigToShuffled (Shuffle.setup rng it n hs sd as).shuffledToOrigMap n := by
    simp only [Shuffle.setup]
    by_cases hit : it ≠ 1
    · rw [if_pos hit]
    · rw [if_neg hit]
  set l := (Shuffle.setup rng it n hs sd as).shuffledToOrigMap with hl
  have hlen : l.length = n := by simpa using hperm.length_eq
  obtain ⟨j, hjn, hji⟩ := exists_pos_of_perm_range l n hperm i hi
  have horig : (Shuffle.setup rng it n hs sd as).origToShuffle i = j := by
    rw [Shuffle.origToShuffle, ho2s, ← hji]
    exact buildOrigToShuffled_getD l n hperm j hjn
  have hread : ∀ m, m < n → (Shuffle.setup rng it n hs sd as).shuffleToOrig m = l.getD m 0 :=
    fun m _ => rfl
  refine ⟨?_, ?_, ?_, ?_⟩
  · rw [horig, hread j hjn, hji]
  · rw [Shuffle.origToShuffle, ho2s, hread i hi]
    exact buildOrigToShuffled_getD l n hperm i hi
  · rw [horig]; exact hjn
  · rw [hread i hi]
    have hmem : l.getD i 0 ∈ l := by
      rw [List.getD_eq_getElem l 0 (hlen ▸ hi)]
      exact List.getElem_mem _
    exact List.mem_range.mp (hperm.subset hmem)

/-- RNG instance used by the witnesses: reversing a list is a
permutation of it. -/
def witnessRng : RngModel where
  stdShuffle := fun _ l => l.reverse
  threadShuffle := fun l => l.reverse
  entropy := 0

/-- Witness for C5 at a concrete shuffle (`iteration 2`, three bits,
thread-seeded), with the permutation hypotheses discharged by
`List.reverse_perm`. -/
theorem shuffle_bijectivity_witness :
    1 < 3
  ∧ ((Shuffle.setup witnessRng 2 3 false 0 true).shuffleToOrig
        ((Shuffle.setup witnessRng 2 3 false 0 true).origToShuffle 1) = 1
    ∧ (Shuffle.setup witnessRng 2 3 false 0 true).origToShuffle
        ((Shuffle.setup witnessRng 2 3 false 0 true).shuffleToOrig 1) = 1
    ∧ (Shuffle.setup witnessRng 2 3 false 0 true).origToShuffle 1 < 3
    ∧ (Shuffle.setup witnessRng 2 3 false 0 true).shuffleToOrig 1 < 3) :=
  ⟨by decide, shuffle_bijectivity witnessRng (fun _ l => l.reverse_perm)
    (fun l => l.reverse_perm) 2 3 false true 0 1 (by decide)⟩

/-- Claim C6, counterexample: a shuffle built by
`Shuffle::new_shuffle_from_seed(1, 4, 7, …)` keeps the seed it was
given, so `get_seed()` returns `7`, not `0`, even though the iteration
number is `1`. -/
theorem fromSeed_iteration_one_seed_not_zero :
    (Shuffle.fromSeed witnessRng 1 4 7).getSeed = 7
  ∧ ¬ (Shuffle.fromSeed witnessRng 1 4 7).getSeed = 0 := by
  exact ⟨rfl, by decide⟩

/-- Claim C6, amended: every shuffle constructed for iteration number 1
is the identity permutation; the seed is `0` when the shuffle was built
by the random constructor (`Shuffle::new`), while `from_seed` keeps the
seed it was given. -/
theorem shuffle_iteration_one (rng : RngModel) (n sd : Nat) (as : Bool) (i : Nat)
    (hi : i < n) :
    ((Shuffle.newRandom rng 1 n as).origToShuffle i = i
      ∧ (Shuffle.newRandom rng 1 n as).shuffleToOrig i = i
      ∧ (Shuffle.newRandom rng 1 n as).getSeed = 0)
  ∧ ((Shuffle.fromSeed rng 1 n sd).origToShuffle i = i
      ∧ (Shuffle.fromSeed rng 1 n sd).shuffleToOrig i = i
      ∧ (Shuffle.fromSeed rng 1 n sd).getSeed = sd) := by
  have hid : ∀ (hs : Bool) (s : Nat) (a : Bool),
      (Shuffle.setup rng 1 n hs s a).shuffledToOrigMap = List.range n := fun hs s a => by
    unfold Shuffle.setup; simp
  have ho2s : ∀ (hs : Bool) (s : Nat) (a : Bool),
      (Shuffle.setup rng 1 n hs s a).origToShuffledMap
        = buildOrigToShuffled (List.range n) n := fun hs s a => by
    unfold Shuffle.setup; simp
  have hgetD : (List.range n).getD i 0 = i := by
    simp [List.getD_eq_getElem?_getD, List.getElem?_range, hi]
  have hbuild : (buildOrigToShuffled (List.range n) n).getD i 0 = i := by
    have := buildOrigToShuffled_getD (List.range n) n (List.Perm.refl _) i hi
    rwa [hgetD] at this
  refine ⟨⟨?_, ?_, rfl⟩, ⟨?_, ?_, rfl⟩⟩
  · rw [Shuffle.origToShuffle, Shuffle.newRandom, ho2s]; exact hbuild
  · rw [Shuffle.shuffleToOrig, Shuffle.newRandom, hid]; exact hgetD
  · rw [Shuffle.origToShuffle, Shuffle.fromSeed, ho2s]; exact hbuild
  · rw [Shuffle.shuffleToOrig, Shuffle.fromSeed, hid]; exact hgetD

/-- Witness for the amended C6 at `n = 2`, `i = 1`, seed `5`. -/
theorem shuffle_iteration_one_witness :
    1 < 2
  ∧ (((Shuffle.newRandom witnessRng 1 2 true).origToShuffle 1 = 1
      ∧ (Shuffle.newRandom witnessRng 1 2 true).shuffleToOrig 1 = 1
      ∧ (Shuffle.newRandom witnessRng 1 2 true).getSeed = 0)
    ∧ ((Shuffle.fromSeed witnessRng 1 2 5).origToShuffle 1 = 1
      ∧ (Shuffle.fromSeed witnessRng 1 2 5).shuffleToOrig 1 = 1
      ∧ (Shuffle.fromSeed witnessRng 1 2 5).getSeed = 5)) :=
  ⟨by decide, shuffle_iteration_one witnessRng 2 5 true 1 (by decide)⟩

/-- The fixed seed `Iteration::new` hands to `new_shuffle_from_seed`. -/
def iterationSeed : Nat := 0x1234567890ABCDEF

/-- The shuffle built in `Iteration::new`: always `from_seed` with the
constant `SEED = 0x1234567890ABCDEF` (the thread-local memo in
`new_shuffle_from_seed` only returns previously constructed shuffles of
the same index and is omitted from the state-free model). -/
def iterationShuffle (rng : RngModel) (iterationNr nrBits : Nat) : Shuffle :=
  Shuffle.fromSeed rng iterationNr nrBits iterationSeed

/-- Claim C10: for any two iteration numbers other than 1 over the same
key length, `Iteration::new` produces identical shuffle maps, because it
always passes the fixed seed `0x1234567890ABCDEF` and the permutation
produced by `Shuffle::from_seed` depends only on the seed and the bit
count. -/
theorem iteration_shuffles_coincide (rng : RngModel) (j k n : Nat)
    (hj : j ≠ 1) (hk : k ≠ 1) :
    (iterationShuffle rng j n).shuffledToOrigMap
        = (iterationShuffle rng k n).shuffledToOrigMap
  ∧ (iterationShuffle rng j n).origToShuffledMap
        = (iterationShuffle rng k n).origToShuffledMap
  ∧ (iterationShuffle rng j n).getSeed = 0x1234567890ABCDEF := by
  unfold iterationShuffle Shuffle.fromSeed Shuffle.setup
  simp [hj, hk, Shuffle.getSeed, iterationSeed]

/-- Witness for C10 at iterations 2 and 3 over four bits. -/
theorem iteration_shuffles_coincide_witness :
    (2 ≠ 1 ∧ 3 ≠ 1)
  ∧ ((iterationShuffle witnessRng 2 4).shuffledToOrigMap
        = (iterationShuffle witnessRng 3 4).shuffledToOrigMap
    ∧ (iterationShuffle witnessRng 2 4).origToShuffledMap
        = (iterationShuffle witnessRng 3 4).origToShuffledMap
    ∧ (iterationShuffle witnessRng 2 4).getSeed = 0x1234567890ABCDEF) :=
  ⟨⟨by decide, by decide⟩, iteration_shuffles_coincide witnessRng 2 3 4
    (by decide) (by decide)⟩

/-! ### Key (`key.rs`)

Bits are packed into 64-bit words, bit `i` sitting in word `i / 64` at
position `i % 64`.  Words are `Nat` values; `u64` wrap-around is made
explicit where the source relies on it. -/

/-- The precomputed `BYTE_PARITY` table of `word_parity`. -/
def byteParityTable : List Nat :=
  [0, 1, 1, 0, 1, 0, 0, 1, 1, 0, 0, 1, 0, 1, 1, 0, 1, 0, 0, 1, 0, 1, 1, 0,
   0, 1, 1, 0, 1, 0, 0, 1, 1, 0, 0, 1, 0, 1, 1, 0, 0, 1, 1, 0, 1, 0, 0, 1,
   0, 1, 1, 0, 1, 0, 0, 1, 1, 0, 0, 1, 0, 1, 1, 0, 1, 0, 0, 1, 0, 1, 1, 0,
   0, 1, 1, 0, 1, 0, 0, 1, 0, 1, 1, 0, 1, 0, 0, 1, 1, 0, 0, 1, 0, 1, 1, 0,
   0, 1, 1, 0, 1, 0, 0, 1, 1, 0, 0, 1, 0, 1, 1, 0, 1, 0, 0, 1, 0, 1, 1, 0,
   0, 1, 1, 0, 1, 0, 0, 1, 1, 0, 0, 1, 0, 1, 1, 0, 0, 1, 1, 0, 1, 0, 0, 1,
   0, 1, 1, 0, 1, 0, 0, 1, 1, 0, 0, 1, 0, 1, 1, 0, 0, 1, 1, 0, 1, 0, 0, 1,
   1, 0, 0, 1, 0, 1, 1, 0, 1, 0, 0, 1, 0, 1, 1, 0, 0, 1, 1, 0, 1, 0, 0, 1,
   0, 1, 1, 0, 1, 0, 0, 1, 1, 0, 0, 1, 0, 1, 1, 0, 1, 0, 0, 1, 0, 1, 1, 0,
   0, 1, 1, 0, 1, 0, 0, 1, 1, 0, 0, 1, 0, 1, 1, 0, 0, 1, 1, 0, 1, 0, 0, 1,
   0, 1, 1, 0, 1, 0, 0, 1, 1, 0, 0, 1, 0, 1, 1, 0]

/-- `word_parity` from `key.rs`: XOR of the eight byte parities. -/
def wordParity (word : Nat) : Nat :=
  ((((((((0 : Nat)
    ^^^ byteParityTable.getD (word &&& 0xff) 0)
    ^^^ byteParityTable.getD ((word >>> 8) &&& 0xff) 0)
    ^^^ byteParityTable.getD ((word >>> 16) &&& 0xff) 0)
    ^^^ byteParityTable.getD ((word >>> 24) &&& 0xff) 0)
    ^^^ byteParityTable.getD ((word >>> 32) &&& 0xff) 0)
    ^^^ byteParityTable.getD ((word >>> 40) &&& 0xff) 0)
    ^^^ byteParityTable.getD ((word >>> 48) &&& 0xff) 0)
    ^^^ byteParityTable.getD ((word >>> 56) &&& 0xff) 0

/-- The packed bit string of `key.rs` (the `estimated_ber` metadata
field, which only feeds noise injection and scheduling, is not part of
this model). -/
structure Key where
  nrBits : Nat
  nrWords : Nat
  words : List Nat

/-- All 64 bits set; `0xffffffffffffffffu64`. -/
def allOnes64 : Nat := 0xffffffffffffffff

/-- Bitwise `u64` complement. -/
def not64 (m : Nat) : Nat := allOnes64 ^^^ m

/-- `Key::start_word_mask`: ones at positions `start_bit_nr % 64` and
above (the `u64` shift drops the overflowed high bits). -/
def startWordMask (startBitNr : Nat) : Nat :=
  (allOnes64 <<< (startBitNr % 64)) % 2 ^ 64

/-- `Key::end_word_mask`: ones at positions `(end_bit_nr % 64)` and
below. -/
def endWordMask (endBitNr : Nat) : Nat :=
  let nrUnusedBits := 64 - (endBitNr + 1) % 64
  if nrUnusedBits ≠ 64 then allOnes64 >>> nrUnusedBits else allOnes64

/-- `Key::compute_range_parity`: XOR the words covering the range, XOR
away the unwanted low bits of the first word and the unwanted high bits
of the last word, and take the parity of the result. -/
def Key.computeRangeParity (k : Key) (startBitNr endBitNr : Nat) : Nat :=
  let startWordNr := startBitNr / 64
  let endWordNr := endBitNr / 64
  let xorWords := (List.range' startWordNr (endWordNr + 1 - startWordNr)).foldl
    (fun acc w => acc ^^^ k.words.getD w 0) 0
  let unwanted1 := k.words.getD startWordNr 0 &&& not64 (startWordMask startBitNr)
  let unwanted2 := k.words.getD endWordNr 0 &&& not64 (endWordMask endBitNr)
  wordParity ((xorWords ^^^ unwanted1) ^^^ unwanted2)

/-- `Key::get_bit`. -/
def Key.getBit (k : Key) (bitNr : Nat) : Nat :=
  if k.words.getD (bitNr / 64) 0 &&& (1 <<< (bitNr % 64)) ≠ 0 then 1 else 0

/-- `Key::flip_bit`. -/
def Key.flipBit (k : Key) (bitNr : Nat) : Key :=
  { k with words := (k.words.set (bitNr / 64)
      (k.words.getD (bitNr / 64) 0 ^^^ (1 <<< (bitNr % 64)))) }

/-- Semantics of the Rust intrinsic `u64::count_ones` on a word. -/
def countOnes64 (w : Nat) : Nat :=
  (List.range 64).countP (fun i => w.testBit i)

/-- `Key::nr_bits_different`: per-word popcount of the XOR. -/
def Key.nrBitsDifferent (k other : Key) : Nat :=
  (List.range k.nrWords).foldl
    (fun acc w => acc + countOnes64 (k.words.getD w 0 ^^^ other.words.getD w 0)) 0

/-- One 64-bit word of `impl From<&str> for Key`:
`word_value |= u64::from(byte - b'0') << i` over the chunk. -/
def wordValue (chunk : List Nat) : Nat :=
  (chunk.enum).foldl (fun acc p => acc ||| (p.2 <<< p.1)) 0

/-- Chunking loop of `impl From<&str> for Key`, with explicit fuel so
that the recursion is structural (the fuel is the list length, which
bounds the number of 64-element chunks). -/
def wordsOfBitsAux : Nat → List Nat → List Nat
  | 0, _ => []
  | fuel + 1, bits =>
    if bits = [] then []
    else wordValue (bits.take 64) :: wordsOfBitsAux fuel (bits.drop 64)

/-- The word list built by `impl From<&str> for Key` over chunks of 64
bits. -/
def wordsOfBits (bits : List Nat) : List Nat :=
  wordsOfBitsAux bits.length bits

/-- `impl From<&str> for Key` on an already-parsed list of bits
(`'0'/'1'` characters become `0`/`1`): build the words 64 bits at a
time, then mask the trailing unused bits of the last word to zero. -/
def Key.fromBits (bits : List Nat) : Key :=
  let nrBits := bits.length
  let nrWords := (nrBits - 1) / 64 + 1
  let ws := wordsOfBits bits
  { nrBits := nrBits, nrWords := nrWords,
    words := ws.set (nrWords - 1) (ws.getD (nrWords - 1) 0 &&& endWordMask (nrBits - 1)) }

/-- Number of set bits of the noisy key in the inclusive bit range
`start..=end` (the quantity `rangeParity` is specified against). -/
def bitCountRange (k : Key) (s e : Nat) : Nat :=
  (List.range' s (e + 1 - s)).countP (fun i => k.getBit i = 1)

/-! ### Parity of a word equals its bit count modulo two -/

/-- The `BYTE_PARITY` table is the bit-count parity on each byte. -/
theorem byteTable_ok : ∀ b < 256,
    byteParityTable.getD b 0 = (List.range 8).countP (fun i => b.testBit i) % 2 := by decide

/-- Every table entry is a bit. -/
theorem byteTable_lt : ∀ b < 256, byteParityTable.getD b 0 < 2 := by decide

/-- XOR of two bits is a bit. -/
theorem xor_lt_two (a b : Nat) (ha : a < 2) (hb : b < 2) : a ^^^ b < 2 := by
  interval_cases a <;> interval_cases b <;> decide

/-- XOR of bits, seen in `ZMod 2`, is addition. -/
theorem zmod2_xor (a b : Nat) (ha : a < 2) (hb : b < 2) :
    ((a ^^^ b : Nat) : ZMod 2) = (a : ZMod 2) + (b : ZMod 2) := by
  interval_cases a <;> interval_cases b <;> decide

/-- A natural below two is recovered from its image in `ZMod 2`. -/
theorem nat_eq_of_zmod2 (a b : Nat) (ha : a < 2) (hb : b < 2)
    (h : (a : ZMod 2) = (b : ZMod 2)) : a = b := by
  interval_cases a <;> interval_cases b <;> first | rfl | exact absurd h (by decide)

/-- Counting the set bits of a shifted-and-masked byte counts the
corresponding eight bits of the word. -/
theorem countP_testBit_byte (w a : Nat) :
    (List.range 8).countP (fun i => ((w >>> a) &&& 255).testBit i)
      = (List.range' a 8).countP (fun i => w.testBit i) := by
  rw [List.range'_eq_map_range, List.countP_map]
  refine List.countP_congr (fun x hx => ?_)
  have hx8 : x < 8 := List.mem_range.mp hx
  have h255 : (255 : Nat) = 2 ^ 8 - 1 := by norm_num
  show ((w >>> a) &&& 255).testBit x = true ↔ w.testBit (a + x) = true
  rw [Nat.testBit_and, Nat.testBit_shiftRight, h255, Nat.testBit_two_pow_sub_one]
  simp [hx8]

/-- Splitting a `countP` over `range'` at a midpoint. -/
theorem countP_range'_split (pred : Nat → Bool) (a m n : Nat) :
    (List.range' a (m + n)).countP pred
      = (List.range' a m).countP pred + (List.range' (a + m) n).countP pred := by
  have h := List.range'_append a m n 1
  simp only [one_mul] at h
  rw [Nat.add_comm m n, ← h, List.countP_append]

/-- The word parity is a bit. -/
theorem wordParity_lt_two (w : Nat) : wordParity w < 2 := by
  have hb : ∀ x : Nat, x &&& 255 < 256 := fun x =>
    Nat.lt_succ_of_le (Nat.and_le_right)
  unfold wordParity
  refine xor_lt_two _ _ (xor_lt_two _ _ (xor_lt_two _ _ (xor_lt_two _ _ (xor_lt_two _ _
    (xor_lt_two _ _ (xor_lt_two _ _ (xor_lt_two _ _ (by decide)
      (byteTable_lt _ (hb _))) (byteTable_lt _ (hb _))) (byteTable_lt _ (hb _)))
      (byteTable_lt _ (hb _))) (byteTable_lt _ (hb _))) (byteTable_lt _ (hb _)))
      (byteTable_lt _ (hb _))) (byteTable_lt _ (hb _))

/-- In `ZMod 2`, the word parity is the number of set bits among the low
64 bits of the word. -/
theorem wordParity_zmod (w : Nat) :
    ((wordParity w : Nat) : ZMod 2)
      = ((List.range' 0 64).countP (fun i => w.testBit i) : ZMod 2) := by
  have hb : ∀ x : Nat, x &&& 255 < 256 := fun x =>
    Nat.lt_succ_of_le (Nat.and_le_right)
  have hbyte : ∀ a : Nat, ((byteParityTable.getD ((w >>> a) &&& 255) 0 : Nat) : ZMod 2)
      = ((List.range' a 8).countP (fun i => w.testBit i) : ZMod 2) := by
    intro a
    rw [byteTable_ok _ (hb _), ZMod.natCast_mod, countP_testBit_byte]
  have hbyte0 : ((byteParityTable.getD (w &&& 255) 0 : Nat) : ZMod 2)
      = ((List.range' 0 8).countP (fun i => w.testBit i) : ZMod 2) := by
    have := hbyte 0
    simpa using this
  have hlt : ∀ x : Nat, byteParityTable.getD ((w >>> x) &&& 255) 0 < 2 :=
    fun x => byteTable_lt _ (hb _)
  have hlt0 : byteParityTable.getD (w &&& 255) 0 < 2 := byteTable_lt _ (hb _)
  have hsplit : ∀ a m n : Nat,
      (((List.range' a (m + n)).countP (fun i => w.testBit i) : Nat) : ZMod 2)
        = ((List.range' a m).countP (fun i => w.testBit i) : ZMod 2)
          + ((List.range' (a + m) n).countP (fun i => w.testBit i) : ZMod 2) := by
    intro a m n
    rw [countP_range'_split]
    push_cast
    ring
  unfold wordParity
  rw [zmod2_xor _ _ (xor_lt_two _ _ (xor_lt_two _ _ (xor_lt_two _ _ (xor_lt_two _ _
      (xor_lt_two _ _ (xor_lt_two _ _ (xor_lt_two _ _ (by decide) hlt0) (hlt 8))
      (hlt 16)) (hlt 24)) (hlt 32)) (hlt 40)) (hlt 48)) (hlt 56)]
  rw [zmod2_xor _ _ (xor_lt_two _ _ (xor_lt_two _ _ (xor_lt_two _ _ (xor_lt_two _ _
      (xor_lt_two _ _ (xor_lt_two _ _ (by decide) hlt0) (hlt 8)) (hlt 16)) (hlt 24))
      (hlt 32)) (hlt 40)) (hlt 48)]
  rw [zmod2_xor _ _ (xor_lt_two _ _ (xor_lt_two _ _ (xor_lt_two _ _ (xor_lt_two _ _
      (xor_lt_two _ _ (by decide) hlt0) (hlt 8)) (hlt 16)) (hlt 24)) (hlt 32)) (hlt 40)]
  rw [zmod2_xor _ _ (xor_lt_two _ _ (xor_lt_two _ _ (xor_lt_two _ _
      (xor_lt_two _ _ (by decide) hlt0) (hlt 8)) (hlt 16)) (hlt 24)) (hlt 32)]
  rw [zmod2_xor _ _ (xor_lt_two _ _ (xor_lt_two _ _
      (xor_lt_two _ _ (by decide) hlt0) (hlt 8)) (hlt 16)) (hlt 24)]
  rw [zmod2_xor _ _ (xor_lt_two _ _ (xor_lt_two _ _ (by decide) hlt0) (hlt 8)) (hlt 16)]
  rw [zmod2_xor _ _ (xor_lt_two _ _ (by decide) hlt0) (hlt 8)]
  rw [zmod2_xor _ _ (by decide) hlt0]
  rw [hbyte0, hbyte 8, hbyte 16, hbyte 24, hbyte 32, hbyte 40, hbyte 48, hbyte 56]
  have h64 : (64 : Nat) = 8 + (8 + (8 + (8 + (8 + (8 + (8 + 8)))))) := by norm_num
  rw [h64, hsplit 0 8, hsplit 8 8, hsplit 16 8, hsplit 24 8, hsplit 32 8, hsplit 40 8,
    hsplit 48 8]
  push_cast
  ring

/-! ### Range parity assembly -/

/-- Bit `i` of the packed key, as a Boolean. -/
def keyBitP (k : Key) : Nat → Bool :=
  fun i => (k.words.getD (i / 64) 0).testBit (i % 64)

/-- Counting the set bits of an XOR: inclusion-exclusion at each
position. -/
theorem countP_xor_nat (x y : Nat) (l : List Nat) :
    l.countP (fun i => (x ^^^ y).testBit i)
        + 2 * l.countP (fun i => x.testBit i && y.testBit i)
      = l.countP (fun i => x.testBit i) + l.countP (fun i => y.testBit i) := by
  induction l with
  | nil => simp
  | cons a t ih =>
    simp only [List.countP_cons, Nat.testBit_xor] at ih ⊢
    rcases hx : x.testBit a <;> rcases hy : y.testBit a <;> simp [hx, hy] <;> omega

/-- In `ZMod 2`, counting the set bits of an XOR adds the two counts. -/
theorem countP_xor_zmod (x y : Nat) (l : List Nat) :
    ((l.countP (fun i => (x ^^^ y).testBit i) : Nat) : ZMod 2)
      = (l.countP (fun i => x.testBit i) : ZMod 2)
        + (l.countP (fun i => y.testBit i) : ZMod 2) := by
  have h := congrArg (fun n : Nat => (n : ZMod 2)) (countP_xor_nat x y l)
  push_cast at h
  have h2 : (2 : ZMod 2) = 0 := by decide
  rw [h2, zero_mul, add_zero] at h
  exact h

/-- In `ZMod 2`, the set-bit count of an XOR fold is the sum of the
individual counts. -/
theorem countP_foldl_xor_zmod (ws : List Nat) (init : Nat) (l : List Nat) :
    ((l.countP (fun i => (ws.foldl (fun acc w => acc ^^^ w) init).testBit i) : Nat) : ZMod 2)
      = (l.countP (fun i => init.testBit i) : ZMod 2)
        + (ws.map (fun w => ((l.countP (fun i => w.testBit i) : Nat) : ZMod 2))).sum := by
  induction ws generalizing init with
  | nil => simp
  | cons a t ih =>
    simp only [List.foldl_cons, List.map_cons, List.sum_cons]
    rw [ih (init ^^^ a), countP_xor_zmod]
    ring

/-- Counting the set bits of one stored word counts the packed key bits
of the corresponding global positions. -/
theorem countP_word_global (k : Key) (w : Nat) :
    (List.range' 0 64).countP (fun r => (k.words.getD w 0).testBit r)
      = (List.range' (64 * w) 64).countP (keyBitP k) := by
  have h1 : List.range' (64 * w) 64 = (List.range 64).map (64 * w + ·) :=
    List.range'_eq_map_range _ _
  have h0 : List.range' 0 64 = (List.range 64).map (0 + ·) :=
    List.range'_eq_map_range _ _
  rw [h0, h1, List.countP_map, List.countP_map]
  refine List.countP_congr (fun r hr => ?_)
  have hr64 : r < 64 := List.mem_range.mp hr
  have hdiv : (64 * w + r) / 64 = w := by omega
  have hmod : (64 * w + r) % 64 = r := by omega
  show (k.words.getD w 0).testBit (0 + r) = true ↔ keyBitP k (64 * w + r) = true
  rw [keyBitP, hdiv, hmod, Nat.zero_add]

/-- Summing the per-word set-bit counts over a run of words counts the
packed key bits of the covered global range. -/
theorem countP_words_global (k : Key) (sw cnt : Nat) :
    (((List.range' sw cnt).map
        (fun w => (((List.range' 0 64).countP
          (fun r => (k.words.getD w 0).testBit r) : Nat) : ZMod 2))).sum)
      = (((List.range' (64 * sw) (64 * cnt)).countP (keyBitP k) : Nat) : ZMod 2) := by
  induction cnt generalizing sw with
  | zero => simp
  | succ m ih =>
    have hsplit : (64 * (m + 1) : Nat) = 64 + 64 * m := by ring
    have houter : List.range' sw (m + 1) = sw :: List.range' (sw + 1) m := by
      rw [List.range'_succ]
    rw [houter, List.map_cons, List.sum_cons, ih (sw + 1), hsplit,
      countP_range'_split, countP_word_global]
    have harg : 64 * sw + 64 = 64 * (sw + 1) := by ring
    rw [harg]
    push_cast
    ring

/-- Bits kept by the complement of the start-word mask: exactly the
positions below `start % 64`. -/
theorem testBit_not64_start (s i : Nat) :
    (not64 (startWordMask s)).testBit i = decide (i < s % 64) := by
  have hr : s % 64 < 64 := Nat.mod_lt _ (by norm_num)
  have hall : allOnes64 = 2 ^ 64 - 1 := by norm_num [allOnes64]
  rw [not64, startWordMask, Nat.testBit_xor, hall, Nat.testBit_two_pow_sub_one,
    Nat.testBit_mod_two_pow, Nat.testBit_shiftLeft, Nat.testBit_two_pow_sub_one]
  have hrhs : decide (i < s % 64) = !decide (s % 64 ≤ i) := by
    rcases Nat.lt_or_ge i (s % 64) with h | h
    · simp [h, Nat.not_le.mpr h]
    · simp [Nat.not_lt.mpr h, h]
  rw [hrhs]
  by_cases h1 : i < 64 <;> by_cases h2 : s % 64 ≤ i <;>
    by_cases h3 : i - s % 64 < 64 <;> simp [h1, h2, h3] <;> omega

/-- Bits kept by the complement of the end-word mask: exactly the
positions strictly above `end % 64` and below 64. -/
theorem testBit_not64_end (e i : Nat) :
    (not64 (endWordMask e)).testBit i = decide (e % 64 < i ∧ i < 64) := by
  have hall : allOnes64 = 2 ^ 64 - 1 := by norm_num [allOnes64]
  rw [not64]
  simp only [endWordMask]
  by_cases hc : (e + 1) % 64 = 0
  · have he : e % 64 = 63 := by omega
    have hu : ¬ (64 - (e + 1) % 64 ≠ 64) := by omega
    rw [if_neg hu, Nat.xor_self, Nat.zero_testBit, he]
    have : ¬ (63 < i ∧ i < 64) := by omega
    simp [this]
  · have hu : 64 - (e + 1) % 64 ≠ 64 := by omega
    have he : (e + 1) % 64 = e % 64 + 1 := by omega
    have hmod : e % 64 < 64 := Nat.mod_lt _ (by norm_num)
    rw [if_pos hu, Nat.testBit_xor, hall, Nat.testBit_two_pow_sub_one,
      Nat.testBit_shiftRight, Nat.testBit_two_pow_sub_one]
    by_cases h1 : i < 64 <;> by_cases h2 : 64 - (e + 1) % 64 + i < 64 <;>
      simp [h1, h2] <;> omega

/-- Counting the set bits of `w &&& m` over the low 64 positions, when
the kept positions of `m` are an interval: it counts the bits of `w`
over that interval. -/
theorem countP_and_interval (w m lo len : Nat) (hlen : lo + len ≤ 64)
    (hm : ∀ i, m.testBit i = decide (lo ≤ i ∧ i < lo + len)) :
    (((List.range' 0 64).countP (fun i => (w &&& m).testBit i) : Nat) : ZMod 2)
      = (((List.range' lo len).countP (fun i => w.testBit i) : Nat) : ZMod 2) := by
  have hsplit : (64 : Nat) = lo + (len + (64 - lo - len)) := by omega
  have hc : ∀ a n : Nat, (List.range' a n).countP (fun i => (w &&& m).testBit i)
      = (List.range' a n).countP (fun i => w.testBit i && m.testBit i) := by
    intro a n
    exact List.countP_congr (fun x hx => by rw [Nat.testBit_and])
  rw [hsplit, countP_range'_split, countP_range'_split, hc, hc, hc]
  have hz1 : (List.range' 0 lo).countP (fun i => w.testBit i && m.testBit i) = 0 := by
    refine List.countP_eq_zero.mpr (fun x hx => ?_)
    have : x < lo := by
      have := List.mem_range'_1.mp hx
      omega
    simp [hm x, this]
  have hz2 : (List.range' (0 + lo + len) (64 - lo - len)).countP
      (fun i => w.testBit i && m.testBit i) = 0 := by
    refine List.countP_eq_zero.mpr (fun x hx => ?_)
    have hx2 := List.mem_range'_1.mp hx
    have : ¬ (x < lo + len) := by omega
    simp [hm x, this]
  have hmid : (List.range' (0 + lo) len).countP (fun i => w.testBit i && m.testBit i)
      = (List.range' lo len).countP (fun i => w.testBit i) := by
    rw [Nat.zero_add]
    refine List.countP_congr (fun x hx => ?_)
    have hx2 := List.mem_range'_1.mp hx
    have hin : lo ≤ x ∧ x < lo + len := by omega
    simp [hm x, hin]
  rw [hz1, hz2, hmid]
  push_cast
  ring

/-- Counting set bits of a stored word over a sub-range of its 64
positions counts the packed key bits of the corresponding global
positions. -/
theorem countP_word_global_len (k : Key) (w len off : Nat) (hoff : off + len ≤ 64) :
    (List.range' off len).countP (fun r => (k.words.getD w 0).testBit r)
      = (List.range' (64 * w + off) len).countP (keyBitP k) := by
  rw [List.range'_eq_map_range, List.range'_eq_map_range, List.countP_map, List.countP_map]
  refine List.countP_congr (fun r hr => ?_)
  have hrl : r < len := List.mem_range.mp hr
  have hdiv : (64 * w + off + r) / 64 = w := by omega
  have hmod : (64 * w + off + r) % 64 = off + r := by omega
  show (k.words.getD w 0).testBit (off + r) = true ↔ keyBitP k (64 * w + off + r) = true
  rw [keyBitP, hdiv, hmod]

/-- `get_bit` returns `1` exactly on the set packed bits. -/
theorem getBit_eq_keyBitP (k : Key) (i : Nat) : (k.getBit i = 1) ↔ keyBitP k i = true := by
  rw [Key.getBit, keyBitP, Nat.one_shiftLeft, Nat.and_two_pow]
  rcases h : (k.words.getD (i / 64) 0).testBit (i % 64) <;>
    simp [h, (Nat.two_pow_pos (i % 64)).ne']

/-- Core of claim C3: `compute_range_parity` is the number of set bits
of the key in the inclusive range, modulo two. -/
theorem computeRangeParity_eq_bitCount (k : Key) (s e : Nat) (hse : s ≤ e) :
    k.computeRangeParity s e = bitCountRange k s e % 2 := by
  have hswle : s / 64 ≤ e / 64 := Nat.div_le_div_right hse
  set sw := s / 64 with hsw
  set ew := e / 64 with hew
  set n := ew + 1 - sw with hn
  -- the three pieces XORed together
  set X := (List.range' sw n).foldl (fun acc w => acc ^^^ k.words.getD w 0) 0 with hX
  set u1 := k.words.getD sw 0 &&& not64 (startWordMask s) with hu1
  set u2 := k.words.getD ew 0 &&& not64 (endWordMask e) with hu2
  have hform : k.computeRangeParity s e = wordParity ((X ^^^ u1) ^^^ u2) := rfl
  apply nat_eq_of_zmod2 _ _ (hform ▸ wordParity_lt_two _) (Nat.mod_lt _ (by norm_num))
  rw [hform, wordParity_zmod]
  -- split the parity of the XOR into the three counts
  rw [countP_xor_zmod, countP_xor_zmod]
  -- the fold of words
  have hXmap : X = ((List.range' sw n).map (fun w => k.words.getD w 0)).foldl
      (fun acc w => acc ^^^ w) 0 := by
    rw [List.foldl_map]
  have hXcount : (((List.range' 0 64).countP (fun i => X.testBit i) : Nat) : ZMod 2)
      = (((List.range' (64 * sw) (64 * n)).countP (keyBitP k) : Nat) : ZMod 2) := by
    rw [hXmap, countP_foldl_xor_zmod, List.map_map]
    have hzero : (List.range' 0 64).countP (fun i => (0 : Nat).testBit i) = 0 :=
      List.countP_eq_zero.mpr (fun x _ => by simp [Nat.zero_testBit])
    rw [hzero]
    have hcomp : ((List.range' sw n).map
        ((fun w => (((List.range' 0 64).countP (fun i => w.testBit i) : Nat) : ZMod 2))
          ∘ (fun w => k.words.getD w 0)))
        = ((List.range' sw n).map (fun w => (((List.range' 0 64).countP
            (fun r => (k.words.getD w 0).testBit r) : Nat) : ZMod 2))) := rfl
    rw [hcomp, countP_words_global]
    push_cast
    ring
  -- the unwanted low bits of the start word
  have hu1count : (((List.range' 0 64).countP (fun i => u1.testBit i) : Nat) : ZMod 2)
      = (((List.range' (64 * sw) (s - 64 * sw)).countP (keyBitP k) : Nat) : ZMod 2) := by
    rw [hu1, countP_and_interval _ _ 0 (s % 64) (by omega)
      (fun i => by rw [testBit_not64_start]; rw [decide_eq_decide]; omega)]
    rw [countP_word_global_len k sw (s % 64) 0 (by omega)]
    have : s % 64 = s - 64 * sw := by omega
    rw [Nat.add_zero, this]
  -- the unwanted high bits of the end word
  have hu2count : (((List.range' 0 64).countP (fun i => u2.testBit i) : Nat) : ZMod 2)
      = (((List.range' (e + 1) (64 * (ew + 1) - (e + 1))).countP (keyBitP k) : Nat)
          : ZMod 2) := by
    rw [hu2, countP_and_interval _ _ (e % 64 + 1) (64 - (e % 64 + 1)) (by omega)
      (fun i => by rw [testBit_not64_end]; rw [decide_eq_decide]; omega)]
    rw [countP_word_global_len k ew (64 - (e % 64 + 1)) (e % 64 + 1) (by omega)]
    have h1 : 64 * ew + (e % 64 + 1) = e + 1 := by omega
    have h2 : 64 - (e % 64 + 1) = 64 * (ew + 1) - (e + 1) := by omega
    rw [h1, h2]
  rw [hXcount, hu1count, hu2count]
  -- split the full word span at `s` and `e + 1`
  have hlen : 64 * n = (s - 64 * sw) + ((e + 1 - s) + (64 * (ew + 1) - (e + 1))) := by
    have h64s : 64 * sw ≤ s := by omega
    have h64e : e < 64 * (ew + 1) := by omega
    omega
  have hsplit1 := countP_range'_split (keyBitP k) (64 * sw) (s - 64 * sw)
    ((e + 1 - s) + (64 * (ew + 1) - (e + 1)))
  have hsplit2 := countP_range'_split (keyBitP k) (64 * sw + (s - 64 * sw)) (e + 1 - s)
    (64 * (ew + 1) - (e + 1))
  have hstart : 64 * sw + (s - 64 * sw) = s := by omega
  have hend : s + (e + 1 - s) = e + 1 := by omega
  rw [hstart] at hsplit2
  rw [hend] at hsplit2
  rw [hlen, hsplit1, hstart, hsplit2]
  -- identify the middle with the specified bit count
  have hmid : (List.range' s (e + 1 - s)).countP (keyBitP k) = bitCountRange k s e := by
    rw [bitCountRange]
    refine (List.countP_congr (fun x _ => ?_)).symm
    have := getBit_eq_keyBitP k x
    constructor
    · intro hx
      exact this.mp (by simpa using hx)
    · intro hx
      simpa using this.mpr hx
  rw [hmid, ZMod.natCast_mod]
  push_cast
  have h2 : (2 : ZMod 2) = 0 := by decide
  linear_combination
    (((List.range' (64 * sw) (s - 64 * sw)).countP (keyBitP k) : Nat) : ZMod 2) * h2
    + (((List.range' (e + 1) (64 * (ew + 1) - (e + 1))).countP (keyBitP k) : Nat)
        : ZMod 2) * h2

/-- The 64-bit example key
`"1011000010101111010010001001000011001100110001011010100001010111"`
(bit `i` of the key is character `i` of the string). -/
def exampleKey64 : Key :=
  Key.fromBits
    [1, 0, 1, 1, 0, 0, 0, 0, 1, 0, 1, 0, 1, 1, 1, 1, 0, 1, 0, 0, 1, 0, 0, 0,
     1, 0, 0, 1, 0, 0, 0, 0, 1, 1, 0, 0, 1, 1, 0, 0, 1, 1, 0, 0, 0, 1, 0, 1,
     1, 0, 1, 0, 1, 0, 0, 0, 0, 1, 0, 1, 0, 1, 1, 1]

/-- Claim C3: for every key and every bit range `s ≤ e < nrBits`,
`compute_range_parity(s, e)` is the number of set bits of the key in
positions `s..=e` modulo two; in particular it yields the five values of
the 64-bit example. -/
theorem range_parity_spec :
    (∀ (k : Key) (s e : Nat), s ≤ e → e < k.nrBits →
        k.computeRangeParity s e = bitCountRange k s e % 2)
  ∧ exampleKey64.computeRangeParity 0 63 = 1
  ∧ exampleKey64.computeRangeParity 0 62 = 0
  ∧ exampleKey64.computeRangeParity 1 63 = 0
  ∧ exampleKey64.computeRangeParity 0 0 = 1
  ∧ exampleKey64.computeRangeParity 63 63 = 1 :=
  ⟨fun k s e hse _ => computeRangeParity_eq_bitCount k s e hse,
    by decide, by decide, by decide, by decide, by decide⟩

/-- Witness for C3: the general statement applied to the example key on
the interior range `1..=62`. -/
theorem range_parity_spec_witness :
    (1 ≤ 62 ∧ 62 < exampleKey64.nrBits)
  ∧ exampleKey64.computeRangeParity 1 62 = bitCountRange exampleKey64 1 62 % 2 :=
  ⟨⟨by decide, by decide⟩, range_parity_spec.1 exampleKey64 1 62 (by decide) (by decide)⟩

/-! ### Block-size schedule (`algorithm.rs`)

`OriginalAlgorithm::block_size` computes with `f32` values.  The model
represents a nonnegative `f32` by its exact value scaled by `2 ^ 160`
(every finite nonnegative `f32` is `m · 2 ^ (e - 23)` with
`e ≥ -126 > -137`, so the scaled value is a natural number).
`roundF32R A B` is IEEE-754 binary32 round-to-nearest, ties-to-even, of
the rational `A / B`, for results in the normal range — which covers
every value this schedule meets (`[1e-5, 73001]`). -/

/-- Round `N / D` to the nearest natural, ties to even. -/
def roundHalfEvenDiv (N D : Nat) : Nat :=
  let q := N / D
  let r := N % D
  if 2 * r < D then q
  else if D < 2 * r then q + 1
  else if q % 2 = 0 then q else q + 1

/-- Round the rational `A / B` to `f32` (value scaled by `2 ^ 160`):
find the exponent `e = ei - 126` with `2 ^ e ≤ A / B < 2 ^ (e + 1)`,
round the 24-bit mantissa to nearest-even, and rescale. -/
def roundF32R (A B : Nat) : Nat :=
  if A = 0 ∨ B = 0 then 0 else
  let ei := Nat.findGreatest (fun i => B * 2 ^ i ≤ A * 2 ^ 126) 253
  let m := roundHalfEvenDiv (A * 2 ^ 149) (B * 2 ^ ei)
  m * 2 ^ (11 + ei)

/-- `f32` division is the correctly rounded rational quotient; on the
scaled representation the scales cancel. -/
def f32Div (x y : Nat) : Nat := roundF32R x y

/-- `f32::ceil` is exact on every representable value (integers of
magnitude up to `2 ^ 24` are representable, and every `f32 ≥ 2 ^ 23` is
already an integer). -/
def f32Ceil (x : Nat) : Nat := ((x + 2 ^ 160 - 1) / 2 ^ 160) * 2 ^ 160

/-- `as u32` on a nonnegative `f32`: truncate toward zero, saturating at
`u32::MAX`. -/
def u32OfF32 (x : Nat) : Nat := min (x / 2 ^ 160) (2 ^ 32 - 1)

/-- `Algorithm::MIN_ESTIMATED_BIT_ERR_RATE = 1e-5` as an `f32`. -/
def minBerF : Nat := roundF32R 1 100000

/-- The `f32` literal `0.73`. -/
def c073F : Nat := roundF32R 73 100

/-- `OriginalAlgorithm::block_size`: clamp the bit error rate to at
least `1e-5`, return `ceil(0.73 / ber) as u32` at iteration 1, and
double (in `u32` arithmetic, hence modulo `2 ^ 32`) for each later
iteration.  Iteration number 0 never reaches this code (the `u32`
subtraction `iteration_nr - 1` would wrap and the recursion would not
terminate); the model maps it to 0. -/
def blockSize : Nat → Nat → Nat → Nat
  | 0, _, _ => 0
  | 1, ber, _ => u32OfF32 (f32Ceil (f32Div c073F (max ber minBerF)))
  | k + 2, ber, n => 2 * blockSize (k + 1) (max ber minBerF) n % 2 ^ 32

/-- Clamping is idempotent across the recursion: the schedule only
depends on `max ber 1e-5`. -/
theorem blockSize_clamp (k : Nat) (ber : Nat) (n : Nat) :
    blockSize k ber n = blockSize k (max ber minBerF) n := by
  have hmax : max (max ber minBerF) minBerF = max ber minBerF :=
    max_eq_left (le_max_right _ _)
  match k with
  | 0 => rfl
  | 1 => show blockSize 1 ber n = blockSize 1 (max ber minBerF) n
         simp only [blockSize, hmax]
  | k + 2 => simp only [blockSize, hmax]

/-- Claim C9, amended: `block_size` clamps the error rate to at least
`1e-5`, doubles per iteration in `u32` arithmetic (exactly doubling as
long as the product stays below `2 ^ 32`), and takes the five concrete
values of the specification. -/
theorem block_size_spec :
    (∀ (k ber n : Nat), blockSize k ber n = blockSize k (max ber minBerF) n)
  ∧ (∀ (ber n : Nat), blockSize 1 ber n
        = u32OfF32 (f32Ceil (f32Div c073F (max ber minBerF))))
  ∧ (∀ (k ber n : Nat), 1 ≤ k → 2 * blockSize k ber n < 2 ^ 32 →
        blockSize (k + 1) ber n = 2 * blockSize k ber n)
  ∧ blockSize 1 (roundF32R 1 100) 10000 = 73
  ∧ blockSize 2 (roundF32R 1 100) 10000 = 146
  ∧ blockSize 3 (roundF32R 1 100) 10000 = 292
  ∧ blockSize 1 (roundF32R 1 1000) 10000 = 730
  ∧ blockSize 1 0 10000 = 73000
  ∧ blockSize 1 (roundF32R 1 10) 10000 = 8 := by
  refine ⟨blockSize_clamp, fun ber n => rfl, ?_, by decide, by decide, by decide,
    by decide, by decide, by decide⟩
  intro k ber n hk hlt
  match k, hk with
  | 1, _ =>
    show 2 * blockSize 1 (max ber minBerF) n % 2 ^ 32 = 2 * blockSize 1 ber n
    rw [← blockSize_clamp, Nat.mod_eq_of_lt hlt]
  | m + 2, _ =>
    show 2 * blockSize (m + 2) (max ber minBerF) n % 2 ^ 32 = 2 * blockSize (m + 2) ber n
    rw [← blockSize_clamp, Nat.mod_eq_of_lt hlt]

/-- Witness for C9: the doubling clause applied at iteration 1 with
`ber = 0.01f32`. -/
theorem block_size_spec_witness :
    (1 ≤ 1 ∧ 2 * blockSize 1 (roundF32R 1 100) 10000 < 2 ^ 32)
  ∧ blockSize 2 (roundF32R 1 100) 10000 = 2 * blockSize 1 (roundF32R 1 100) 10000 :=
  ⟨⟨by decide, by decide⟩,
    block_size_spec.2.2.1 1 (roundF32R 1 100) 10000 (by decide) (by decide)⟩

/-- Claim C9, counterexample to unconditional doubling: with the clamped
rate (`ber = 0`), iteration 17 overflows `u32` (`2 · 2392064000 =
4784128000 ≥ 2 ^ 32`), so its block size wraps to `489160704` instead of
being twice iteration 16. -/
theorem block_size_overflow :
    blockSize 16 0 10000 = 2392064000
  ∧ blockSize 17 0 10000 = 489160704
  ∧ ¬ blockSize 17 0 10000 = 2 * blockSize 16 0 10000 := by
  exact ⟨by decide, by decide, by decide⟩

/-! ### Shuffled key (`shuffled_key.rs`)

A `ShuffledKey` couples the read-only correct key, the shared mutable
noisy key, and the shared shuffle.  The model keeps the read-only parts
in `SKey` (the shuffle enters only through its `shuffle_to_orig`
lookup) and passes the mutable noisy key explicitly: every operation
that mutates it returns the new key. -/

structure SKey where
  correctKey : Key
  shuffleToOrig : Nat → Nat

/-- `ShuffledKey::flip_bit`: flip the bit of the noisy key at the
original position of the given shuffled position. -/
def SKey.flipBit (sk : SKey) (noisy : Key) (bitNr : Nat) : Key :=
  noisy.flipBit (sk.shuffleToOrig bitNr)

/-- `ShuffledKey::compute_range_parity`: walk the shuffled positions
`start..=end` bit by bit, toggling the parity on each set noisy bit. -/
def SKey.computeRangeParity (sk : SKey) (noisy : Key) (s e : Nat) : Nat :=
  (List.range' s (e + 1 - s)).foldl
    (fun p b => if noisy.getBit (sk.shuffleToOrig b) = 1 then 1 - p else p) 0

/-- `ShuffledKey::ask_correct_range_parity`: the same walk over the
correct key (the prototype parity oracle). -/
def SKey.askCorrectRangeParity (sk : SKey) (s e : Nat) : Nat :=
  (List.range' s (e + 1 - s)).foldl
    (fun p b => if sk.correctKey.getBit (sk.shuffleToOrig b) = 1 then 1 - p else p) 0

/-- Number of set noisy bits over a shuffled range. -/
def noisyCount (sk : SKey) (noisy : Key) (s e : Nat) : Nat :=
  (List.range' s (e + 1 - s)).countP (fun b => noisy.getBit (sk.shuffleToOrig b) = 1)

/-- Number of set correct bits over a shuffled range. -/
def correctCount (sk : SKey) (s e : Nat) : Nat :=
  (List.range' s (e + 1 - s)).countP (fun b => sk.correctKey.getBit (sk.shuffleToOrig b) = 1)

/-- `get_bit` only returns bits. -/
theorem getBit_lt_two (k : Key) (i : Nat) : k.getBit i < 2 := by
  rw [Key.getBit]; split <;> norm_num

/-- The toggling fold computes a count modulo two. -/
theorem parity_foldl (g : Nat → Nat) (l : List Nat) (p : Nat) (hp : p < 2) :
    l.foldl (fun p b => if g b = 1 then 1 - p else p) p
      = (p + l.countP (fun b => g b = 1)) % 2 := by
  induction l generalizing p with
  | nil => simp [Nat.mod_eq_of_lt hp]
  | cons a t ih =>
    simp only [List.foldl_cons, List.countP_cons]
    by_cases ha : g a = 1
    · rw [if_pos ha, ih (1 - p) (by omega)]
      have hd : (if decide (g a = 1) = true then (1 : Nat) else 0) = 1 := by
        simp [ha]
      rw [hd]
      omega
    · rw [if_neg ha, ih p hp]
      have hd : (if decide (g a = 1) = true then (1 : Nat) else 0) = 0 := by
        simp [ha]
      rw [hd]
      omega

/-- `compute_range_parity` of the shuffled view is the set-bit count
modulo two. -/
theorem skComputeRangeParity_eq (sk : SKey) (noisy : Key) (s e : Nat) :
    sk.computeRangeParity noisy s e = noisyCount sk noisy s e % 2 := by
  rw [SKey.computeRangeParity, noisyCount, parity_foldl _ _ 0 (by norm_num), Nat.zero_add]

/-- `ask_correct_range_parity` is the correct-key set-bit count modulo
two. -/
theorem skAskCorrectRangeParity_eq (sk : SKey) (s e : Nat) :
    sk.askCorrectRangeParity s e = correctCount sk s e % 2 := by
  rw [SKey.askCorrectRangeParity, correctCount, parity_foldl _ _ 0 (by norm_num),
    Nat.zero_add]

/-- Splitting a shuffled-range count at the midpoint. -/
theorem countP_range_split_at (pred : Nat → Bool) (s m e : Nat) (h1 : s ≤ m) (h2 : m < e) :
    (List.range' s (e + 1 - s)).countP pred
      = (List.range' s (m + 1 - s)).countP pred
        + (List.range' (m + 1) (e - m)).countP pred := by
  have hlen : e + 1 - s = (m + 1 - s) + (e - m) := by omega
  have hmid : s + (m + 1 - s) = m + 1 := by omega
  rw [hlen, countP_range'_split, hmid]

/-- XOR on bits is addition modulo two. -/
theorem xor_mod_two (a b : Nat) (ha : a < 2) (hb : b < 2) : a ^^^ b = (a + b) % 2 := by
  interval_cases a <;> interval_cases b <;> decide

/-! ### Block tree (`block.rs`)

Blocks live in an `Rc`/`RefCell` graph: children are owned, the parent
is a weak back-reference.  The functional model is an inductive tree;
operations that mutate a block return the updated block, and the parent
back-reference of a freshly created child is implicit in returning the
updated parent alongside the child. -/

inductive BTree where
  | node (startBit endBit : Nat) (currentParity correctParity : Option Nat)
      (leftChild rightChild : Option BTree)

/-- `Block::get_start_bit_nr`. -/
def BTree.startBit : BTree → Nat
  | .node s _ _ _ _ _ => s

/-- `Block::get_end_bit_nr`. -/
def BTree.endBit : BTree → Nat
  | .node _ e _ _ _ _ => e

/-- Cached `current_parity`. -/
def BTree.currentParity : BTree → Option Nat
  | .node _ _ cur _ _ _ => cur

/-- `Block::get_correct_parity`. -/
def BTree.correctParity : BTree → Option Nat
  | .node _ _ _ cor _ _ => cor

/-- `Block::get_left_sub_block`. -/
def BTree.leftChild : BTree → Option BTree
  | .node _ _ _ _ l _ => l

/-- `Block::get_right_sub_block`. -/
def BTree.rightChild : BTree → Option BTree
  | .node _ _ _ _ _ r => r

/-- `SubBlockType` from `block.rs`. -/
inductive SubBlockType where
  | left
  | right

/-- `Block::create_sub_block`: split the range at `(start + end) / 2`,
create a fresh child (empty parity caches, no children) covering the
requested half, store it in the corresponding child slot — whether or
not that slot was already occupied — and return it (the updated parent
comes back alongside the child, which carries the parent
back-reference in the source). -/
def BTree.createSubBlock : BTree → SubBlockType → BTree × BTree
  | .node s e cur cor l r, side =>
    let m := (s + e) / 2
    match side with
    | .left =>
      let child := BTree.node s m none none none none
      (BTree.node s e cur cor (some child) r, child)
    | .right =>
      let child := BTree.node (m + 1) e none none none none
      (BTree.node s e cur cor l (some child), child)

/-- `Block::flip_current_parity`: a no-op on an unknown cache, otherwise
`1 - parity`. -/
def flipCurrentParity : Option Nat → Option Nat
  | none => none
  | some p => some (1 - p)

/-- A block whose left slot is already occupied by a child carrying
cached parities. -/
def occupiedParent : BTree :=
  BTree.node 0 3 (some 1) (some 0) (some (BTree.node 0 1 (some 1) (some 1) none none)) none

/-- The pre-existing left child of `occupiedParent`. -/
def occupiedChild : BTree :=
  BTree.node 0 1 (some 1) (some 1) none none

/-- Claim C8, counterexample: calling `create_sub_block` on the already
occupied left slot does not fail — it succeeds, returns a fresh child
with empty caches, and silently replaces the stored child (there is no
`InvalidState` error anywhere in `block.rs`; `try_correct_block` relies
on this overwriting behaviour when it re-descends an existing tree). -/
theorem create_sub_block_occupied_succeeds :
    (occupiedParent.createSubBlock SubBlockType.left).2
        = BTree.node 0 1 none none none none
  ∧ (occupiedParent.createSubBlock SubBlockType.left).1
        = BTree.node 0 3 (some 1) (some 0)
            (some (BTree.node 0 1 none none none none)) none
  ∧ ¬ (occupiedParent.createSubBlock SubBlockType.left).2 = occupiedChild := by
  refine ⟨rfl, rfl, fun h => ?_⟩
  have h1 : (occupiedParent.createSubBlock SubBlockType.left).2.correctParity = none := rfl
  rw [h, occupiedChild] at h1
  simp [BTree.correctParity] at h1

/-- Claim C8, amended: for every block and either side,
`create_sub_block` succeeds unconditionally: it returns a fresh child
with empty parity caches covering the proper half of the range and
overwrites the child slot, occupied or not. -/
theorem create_sub_block_overwrites (b : BTree) :
    ((b.createSubBlock SubBlockType.left).2
        = BTree.node b.startBit ((b.startBit + b.endBit) / 2) none none none none)
  ∧ ((b.createSubBlock SubBlockType.left).1
        = BTree.node b.startBit b.endBit b.currentParity b.correctParity
            (some ((b.createSubBlock SubBlockType.left).2)) b.rightChild)
  ∧ ((b.createSubBlock SubBlockType.right).2
        = BTree.node ((b.startBit + b.endBit) / 2 + 1) b.endBit none none none none)
  ∧ ((b.createSubBlock SubBlockType.right).1
        = BTree.node b.startBit b.endBit b.currentParity b.correctParity
            b.leftChild (some ((b.createSubBlock SubBlockType.right).2))) := by
  cases b
  exact ⟨rfl, rfl, rfl, rfl⟩

/-- `Block::try_to_infer_correct_parity`.  The inputs are exactly the
data the source consults: the block's own `correct_parity`, the parent
block (if any) with its child slots and parity, and which child slot the
block occupies (the source determines this with `Rc::ptr_eq` against the
parent's left child).  Returns the block's `correct_parity` after the
call together with the returned Boolean. -/
def tryToInferCorrectParity (selfCor : Option Nat) (parent : Option BTree)
    (selfIsLeft : Bool) : Option Nat × Bool :=
  if selfCor.isSome then (selfCor, true)
  else
    match parent with
    | none => (selfCor, false)
    | some p =>
      if p.leftChild.isNone || p.rightChild.isNone then (selfCor, false)
      else if p.correctParity.isNone then (selfCor, false)
      else
        match (if selfIsLeft then p.rightChild else p.leftChild) with
        | none => (selfCor, false)
        | some sib =>
          match sib.correctParity, p.correctParity with
          | some sc, some pc => (some (pc ^^^ sc), true)
          | _, _ => (selfCor, false)

/-- Computation lemma: with an unknown own parity, a parent whose two
child slots are filled, a known parent parity and a known sibling
parity, the call infers `parent XOR sibling`. -/
theorem tryInfer_eq_of (p : BTree) (sl : Bool) (pc sc : Nat) (sib : BTree)
    (hl : p.leftChild.isSome = true) (hr : p.rightChild.isSome = true)
    (hp : p.correctParity = some pc)
    (hs : (if sl then p.rightChild else p.leftChild) = some sib)
    (hsc : sib.correctParity = some sc) :
    tryToInferCorrectParity none (some p) sl = (some (pc ^^^ sc), true) := by
  rcases p with ⟨s, e, cur, cor, l, r⟩
  simp only [BTree.leftChild, BTree.rightChild, BTree.correctParity] at hl hr hp hs
  rcases l with _ | lc
  · simp at hl
  rcases r with _ | rc
  · simp at hr
  subst hp
  cases sl
  · have hlc : lc = sib := by simpa using hs
    subst hlc
    rcases lc with ⟨ss, se2, scur, scor, sll, srr⟩
    simp only [BTree.correctParity] at hsc
    subst hsc
    simp [tryToInferCorrectParity, BTree.leftChild, BTree.rightChild,
      BTree.correctParity]
  · have hrc : rc = sib := by simpa using hs
    subst hrc
    rcases rc with ⟨ss, se2, scur, scor, sll, srr⟩
    simp only [BTree.correctParity] at hsc
    subst hsc
    simp [tryToInferCorrectParity, BTree.leftChild, BTree.rightChild,
      BTree.correctParity]

/-- Parity arithmetic of a split: parent XOR right half gives the left
half. -/
theorem askCorrect_xor_right (sk : SKey) (s e : Nat) (hse : s < e) :
    sk.askCorrectRangeParity s e ^^^ sk.askCorrectRangeParity ((s + e) / 2 + 1) e
      = sk.askCorrectRangeParity s ((s + e) / 2) := by
  have hm1 : s ≤ (s + e) / 2 := by omega
  have hm2 : (s + e) / 2 < e := by omega
  rw [skAskCorrectRangeParity_eq, skAskCorrectRangeParity_eq, skAskCorrectRangeParity_eq]
  rw [correctCount, countP_range_split_at _ s ((s + e) / 2) e hm1 hm2]
  have hlen : e + 1 - ((s + e) / 2 + 1) = e - (s + e) / 2 := by omega
  rw [correctCount, correctCount, hlen]
  rw [xor_mod_two _ _ (Nat.mod_lt _ (by norm_num)) (Nat.mod_lt _ (by norm_num))]
  omega

/-- Parity arithmetic of a split: parent XOR left half gives the right
half. -/
theorem askCorrect_xor_left (sk : SKey) (s e : Nat) (hse : s < e) :
    sk.askCorrectRangeParity s e ^^^ sk.askCorrectRangeParity s ((s + e) / 2)
      = sk.askCorrectRangeParity ((s + e) / 2 + 1) e := by
  have hm1 : s ≤ (s + e) / 2 := by omega
  have hm2 : (s + e) / 2 < e := by omega
  rw [skAskCorrectRangeParity_eq, skAskCorrectRangeParity_eq, skAskCorrectRangeParity_eq]
  rw [correctCount, countP_range_split_at _ s ((s + e) / 2) e hm1 hm2]
  have hlen : e + 1 - ((s + e) / 2 + 1) = e - (s + e) / 2 := by omega
  rw [correctCount, correctCount, hlen]
  rw [xor_mod_two _ _ (Nat.mod_lt _ (by norm_num)) (Nat.mod_lt _ (by norm_num))]
  omega

/-- Claim C7: `try_to_infer_correct_parity` returns true exactly when
the block's correct parity is known after the call; with an unknown own
parity and parent, sibling and both their parities available it infers
`parent XOR sibling`; and when the parent's and sibling's stored
parities are the correct key's parities over their ranges, the inferred
value is the correct key's parity over the block's own half of the
parent range (both for a left and for a right block). -/
theorem try_infer_correct_parity_spec :
    (∀ (selfCor : Option Nat) (parent : Option BTree) (sl : Bool),
        (tryToInferCorrectParity selfCor parent sl).2
          = (tryToInferCorrectParity selfCor parent sl).1.isSome)
  ∧ (∀ (p : BTree) (sl : Bool) (pc sc : Nat) (sib : BTree),
        p.leftChild.isSome = true → p.rightChild.isSome = true →
        p.correctParity = some pc →
        (if sl then p.rightChild else p.leftChild) = some sib →
        sib.correctParity = some sc →
        tryToInferCorrectParity none (some p) sl = (some (pc ^^^ sc), true))
  ∧ (∀ (sk : SKey) (s e : Nat) (p sib : BTree), s < e →
        p.leftChild.isSome = true → p.rightChild = some sib →
        p.correctParity = some (sk.askCorrectRangeParity s e) →
        sib.correctParity = some (sk.askCorrectRangeParity ((s + e) / 2 + 1) e) →
        (tryToInferCorrectParity none (some p) true).1
          = some (sk.askCorrectRangeParity s ((s + e) / 2)))
  ∧ (∀ (sk : SKey) (s e : Nat) (p sib : BTree), s < e →
        p.leftChild = some sib → p.rightChild.isSome = true →
        p.correctParity = some (sk.askCorrectRangeParity s e) →
        sib.correctParity = some (sk.askCorrectRangeParity s ((s + e) / 2)) →
        (tryToInferCorrectParity none (some p) false).1
          = some (sk.askCorrectRangeParity ((s + e) / 2 + 1) e)) := by
  refine ⟨?_, ?_, ?_, ?_⟩
  · intro selfCor parent sl
    rcases selfCor with _ | v
    · rcases parent with _ | ⟨s, e, cur, cor, l, r⟩
      · rfl
      · rcases l with _ | lc
        · simp [tryToInferCorrectParity, BTree.leftChild, BTree.rightChild]
        · rcases r with _ | rc
          · simp [tryToInferCorrectParity, BTree.leftChild, BTree.rightChild]
          · rcases cor with _ | pc
            · simp [tryToInferCorrectParity, BTree.leftChild, BTree.rightChild,
                BTree.correctParity]
            · cases sl
              · rcases lc with ⟨ls, le, lcur, lcor, ll, lr⟩
                rcases lcor with _ | sc <;>
                  simp [tryToInferCorrectParity, BTree.leftChild, BTree.rightChild,
                    BTree.correctParity]
              · rcases rc with ⟨rs, re, rcur, rcor, rl, rr⟩
                rcases rcor with _ | sc <;>
                  simp [tryToInferCorrectParity, BTree.leftChild, BTree.rightChild,
                    BTree.correctParity]
    · simp [tryToInferCorrectParity]
  · exact fun p sl pc sc sib hl hr hp hs hsc => tryInfer_eq_of p sl pc sc sib hl hr hp hs hsc
  · intro sk s e p sib hse hl hr hp hsc
    rw [tryInfer_eq_of p true (sk.askCorrectRangeParity s e)
      (sk.askCorrectRangeParity ((s + e) / 2 + 1) e) sib hl
      (by rw [hr]; rfl) hp (by rw [if_pos rfl]; exact hr) hsc]
    simp [askCorrect_xor_right sk s e hse]
  · intro sk s e p sib hse hl hr hp hsc
    rw [tryInfer_eq_of p false (sk.askCorrectRangeParity s e)
      (sk.askCorrectRangeParity s ((s + e) / 2)) sib
      (by rw [hl]; rfl) hr hp (by rw [if_neg (by simp)]; exact hl) hsc]
    simp [askCorrect_xor_left sk s e hse]

/-- Shuffled key used by the C7 witness: a four-bit correct key with the
identity shuffle. -/
def skW : SKey := ⟨Key.fromBits [1, 0, 1, 0], fun b => b⟩

/-- Right child used by the C7 witness, holding the exact correct parity
of its half range. -/
def sibW : BTree := BTree.node 2 3 none (some (skW.askCorrectRangeParity 2 3)) none none

/-- Parent block used by the C7 witness: both child slots filled, exact
correct parity stored. -/
def parentW : BTree :=
  BTree.node 0 3 none (some (skW.askCorrectRangeParity 0 3))
    (some (BTree.node 0 1 none none none none)) (some sibW)

/-- Witness for C7: inference of the left half `0..=1` of the parent
range `0..=3` from the parent and the right sibling. -/
theorem try_infer_correct_parity_spec_witness :
    (0 < 3 ∧ parentW.leftChild.isSome = true ∧ parentW.rightChild = some sibW
      ∧ parentW.correctParity = some (skW.askCorrectRangeParity 0 3)
      ∧ sibW.correctParity = some (skW.askCorrectRangeParity ((0 + 3) / 2 + 1) 3))
  ∧ (tryToInferCorrectParity none (some parentW) true).1
      = some (skW.askCorrectRangeParity 0 ((0 + 3) / 2)) :=
  ⟨⟨by decide, rfl, rfl, rfl, rfl⟩,
    try_infer_correct_parity_spec.2.2.1 skW 0 3 parentW sibW (by decide) rfl rfl rfl rfl⟩

/-! ### Behaviour of `flip_bit` at the bit level -/

/-- `get_bit` as a test of the packed bit. -/
theorem getBit_eq_ite (k : Key) (i : Nat) :
    k.getBit i = if (k.words.getD (i / 64) 0).testBit (i % 64) then 1 else 0 := by
  rw [Key.getBit, Nat.one_shiftLeft, Nat.and_two_pow]
  rcases h : (k.words.getD (i / 64) 0).testBit (i % 64) <;>
    simp [h, (Nat.two_pow_pos (i % 64)).ne']

/-- `flip_bit` flips the addressed bit (when its word exists). -/
theorem getBit_flipBit_self (k : Key) (i : Nat) (h : i / 64 < k.words.length) :
    (k.flipBit i).getBit i = 1 - k.getBit i := by
  rw [getBit_eq_ite, getBit_eq_ite]
  have hset : (k.flipBit i).words.getD (i / 64) 0
      = k.words.getD (i / 64) 0 ^^^ (1 <<< (i % 64)) := by
    rw [Key.flipBit]
    exact getD_set_self _ _ _ _ h
  rw [hset, Nat.one_shiftLeft, Nat.testBit_xor, Nat.testBit_two_pow_self]
  rcases hb : (k.words.getD (i / 64) 0).testBit (i % 64) <;> simp [hb]

/-- `flip_bit` leaves every other bit unchanged. -/
theorem getBit_flipBit_ne (k : Key) (i j : Nat) (hne : j ≠ i) :
    (k.flipBit i).getBit j = k.getBit j := by
  rw [getBit_eq_ite, getBit_eq_ite]
  by_cases hlen : i / 64 < k.words.length
  · by_cases hw : j / 64 = i / 64
    · have hset : (k.flipBit i).words.getD (j / 64) 0
          = k.words.getD (i / 64) 0 ^^^ (1 <<< (i % 64)) := by
        rw [hw, Key.flipBit]
        exact getD_set_self _ _ _ _ hlen
      have hmod : j % 64 ≠ i % 64 := by omega
      rw [hset, hw, Nat.one_shiftLeft, Nat.testBit_xor,
        Nat.testBit_two_pow_of_ne (fun hx => hmod hx.symm)]
      simp
    · -- different word: the set does not touch the read word
      have hset : (k.flipBit i).words.getD (j / 64) 0 = k.words.getD (j / 64) 0 := by
        rw [Key.flipBit]
        exact getD_set_ne _ _ _ _ _ (fun hx => hw hx.symm)
      rw [hset]
  · -- out-of-range word index: `List.set` is the identity
    have hset : (k.flipBit i).words = k.words := by
      rw [Key.flipBit]
      exact List.set_eq_of_length_le (by omega)
    rw [hset]

/-- `flip_bit` preserves the word-vector length. -/
theorem flipBit_words_length (k : Key) (i : Nat) :
    (k.flipBit i).words.length = k.words.length := by
  rw [Key.flipBit]
  exact List.length_set _ _ _

/-! ### Hamming distance -/

/-- Hamming distance over the first `n` bit positions, counted bit by
bit (the specified meaning of `nr_bits_different`). -/
def hammingDist (n : Nat) (a b : Key) : Nat :=
  (List.range' 0 n).countP (fun i => decide (a.getBit i ≠ b.getBit i))

/-- Counting with a predicate toggled from `true` to `false` at one
in-range position drops the count by one. -/
theorem countP_flip_at (a n j : Nat) (hj1 : a ≤ j) (hj2 : j < a + n) (p q : Nat → Bool)
    (hagree : ∀ x, x ≠ j → a ≤ x → x < a + n → p x = q x)
    (hpj : p j = false) (hqj : q j = true) :
    (List.range' a n).countP p + 1 = (List.range' a n).countP q := by
  have hsplit : n = (j - a) + (1 + (n - (j - a) - 1)) := by omega
  rw [hsplit, countP_range'_split, countP_range'_split, countP_range'_split,
    countP_range'_split]
  have hstart : a + (j - a) = j := by omega
  rw [hstart]
  have hone : List.range' j 1 = [j] := List.range'_one
  have hlow : (List.range' a (j - a)).countP p = (List.range' a (j - a)).countP q := by
    refine List.countP_congr (fun x hx => ?_)
    have hx2 := List.mem_range'_1.mp hx
    rw [hagree x (by omega) (by omega) (by omega)]
  have hhigh : (List.range' (j + 1) (n - (j - a) - 1)).countP p
      = (List.range' (j + 1) (n - (j - a) - 1)).countP q := by
    refine List.countP_congr (fun x hx => ?_)
    have hx2 := List.mem_range'_1.mp hx
    rw [hagree x (by omega) (by omega) (by omega)]
  rw [hone, hlow, hhigh]
  simp [List.countP_cons, hpj, hqj]
  omega

/-- Flipping a bit where the keys disagree lowers the Hamming distance
by exactly one. -/
theorem hammingDist_flip (n : Nat) (a b : Key) (j : Nat) (hj : j < n)
    (hdiff : ¬ a.getBit j = b.getBit j) (hb : j / 64 < b.words.length) :
    hammingDist n a (b.flipBit j) + 1 = hammingDist n a b := by
  rw [hammingDist, hammingDist]
  refine countP_flip_at 0 n j (Nat.zero_le _) (by omega) _ _ ?_ ?_ ?_
  · intro x hx _ _
    rw [getBit_flipBit_ne b j x hx]
  · have hflip := getBit_flipBit_self b j hb
    have ha := getBit_lt_two a j
    have hb2 := getBit_lt_two b j
    simp only [decide_eq_false_iff_not, Decidable.not_not]
    omega
  · simpa using hdiff

/-! ### BINARY (`Iteration::try_correct_block`, `iteration.rs`)

The while loop of `try_correct_block` always calls `create_sub_block`
on the current block, so the blocks it descends through are freshly
created at every level: their parity caches start empty, the left
child's correct parity comes from the oracle, the right child's from
inference against the current block, and their current parities are
computed from the (unchanged) noisy key by `get_error_parity`.  The
model therefore carries the current block's range and correct parity
through the loop and records, for each block descended into, the range
and both parities it caches — the descent path, whose nodes are
exactly the ancestors of the corrected leaf (the leaf itself is the
final node).  The recursion is driven by explicit fuel (any fuel
exceeding the bit width of the block suffices, and the wrapper passes
the bit width). -/

structure DescNode where
  s : Nat
  e : Nat
  cur : Nat
  cor : Nat

/-- The loop of `try_correct_block`.  Returns the mutated noisy key,
the shuffle position of the flipped bit, and the descent path; `none`
models the `expect` panic of `get_error_parity` when descending right
of a block whose own correct parity was never known. -/
def binaryDescend (sk : SKey) : Nat → Key → Nat → Nat → Option Nat →
    Option (Key × Nat × List DescNode)
  | 0, _, _, _, _ => none
  | fuel + 1, noisy, s, e, cor =>
    if e ≤ s then
      -- nr_bits = 1: `correct_bit(start)` flips through the shuffle
      some (sk.flipBit noisy s, s, [])
    else
      let m := (s + e) / 2
      -- create_sub_block(Left/Right): fresh blocks, empty caches
      -- left.ask_correct_parity(): freshly created, so the oracle is asked
      let lcor := sk.askCorrectRangeParity s m
      -- right.try_to_infer_correct_parity(): parent and both children
      -- exist, so it infers parent XOR left if the parent parity is known
      let rcor : Option Nat := match cor with
        | some pc => some (pc ^^^ lcor)
        | none => none
      -- left.get_error_parity(): computes and caches the left parity
      let lcur := sk.computeRangeParity noisy s m
      if lcur ≠ lcor then
        match binaryDescend sk fuel noisy s m (some lcor) with
        | none => none
        | some (noisy2, leaf, path) => some (noisy2, leaf, ⟨s, m, lcur, lcor⟩ :: path)
      else
        -- right.get_error_parity(): panics unless the inference succeeded
        match rcor with
        | none => none
        | some rc =>
          let rcur := sk.computeRangeParity noisy (m + 1) e
          match binaryDescend sk fuel noisy (m + 1) e (some rc) with
          | none => none
          | some (noisy2, leaf, path) => some (noisy2, leaf, ⟨m + 1, e, rcur, rc⟩ :: path)

/-- A top-level block as `schedule_top_block_correct_task` sees it: its
shuffled range and the two parity caches.  (Any child slots are
irrelevant: the descent loop recreates both children of every block it
visits.) -/
structure TopBlock where
  startBit : Nat
  endBit : Nat
  currentParity : Option Nat
  correctParity : Option Nat

/-- `Iteration::try_correct_block` on a top block: run the loop (the
block's bit width bounds the descent) and convert the corrected
shuffle position to original space via `shuffle_to_orig`. -/
def tryCorrectBlock (sk : SKey) (noisy : Key) (tb : TopBlock) :
    Option (Key × Nat × List DescNode) :=
  match binaryDescend sk (tb.endBit - tb.startBit + 1) noisy tb.startBit tb.endBit
      tb.correctParity with
  | none => none
  | some (noisy2, leaf, path) => some (noisy2, sk.shuffleToOrig leaf, path)

/-- Main descent lemma: on a range with an odd number of erroneous
positions and the exact correct parity supplied, the loop succeeds,
flips exactly the one bit it returns, that bit is erroneous, and every
path node stores the exact parities of its subrange, which contains the
leaf. -/
theorem binaryDescend_ok (sk : SKey) (fuel : Nat) :
    ∀ (s e : Nat) (noisy : Key) (pc : Nat), e - s < fuel →
    pc = sk.askCorrectRangeParity s e →
    noisyCount sk noisy s e % 2 ≠ correctCount sk s e % 2 →
    ∃ leaf path,
      binaryDescend sk fuel noisy s e (some pc) = some (sk.flipBit noisy leaf, leaf, path)
      ∧ s ≤ leaf ∧ leaf ≤ e
      ∧ ¬ noisy.getBit (sk.shuffleToOrig leaf)
            = sk.correctKey.getBit (sk.shuffleToOrig leaf)
      ∧ (∀ nd ∈ path, nd.s ≤ leaf ∧ leaf ≤ nd.e ∧ s ≤ nd.s ∧ nd.e ≤ e
          ∧ nd.cur = sk.computeRangeParity noisy nd.s nd.e
          ∧ nd.cor = sk.askCorrectRangeParity nd.s nd.e) := by
  induction fuel with
  | zero => intro s e noisy pc hf; omega
  | succ fuel ih =>
    intro s e noisy pc hf hpc hodd
    have hse : s ≤ e := by
      by_contra hlt
      have hempty : e + 1 - s = 0 := by omega
      rw [noisyCount, correctCount, hempty] at hodd
      simp at hodd
    by_cases hbase : e ≤ s
    · -- single-bit block: the counts over `[s]` are the two bits
      have hes : s = e := by omega
      subst hes
      refine ⟨s, [], ?_, le_refl s, le_refl s, ?_, by simp⟩
      · rw [binaryDescend, if_pos (le_refl s)]
      · rw [noisyCount, correctCount] at hodd
        have hone : s + 1 - s = 1 := by omega
        rw [hone, List.range'_one] at hodd
        simp only [List.countP_cons, List.countP_nil] at hodd
        intro heq
        rw [heq] at hodd
        exact hodd rfl
    · -- split block
      have hse2 : s < e := by omega
      set m := (s + e) / 2 with hm
      have hm1 : s ≤ m := by omega
      have hm2 : m < e := by omega
      have hsplitN := countP_range_split_at
        (fun b => decide (noisy.getBit (sk.shuffleToOrig b) = 1)) s m e hm1 hm2
      have hsplitC := countP_range_split_at
        (fun b => decide (sk.correctKey.getBit (sk.shuffleToOrig b) = 1)) s m e hm1 hm2
      have hlenR : e + 1 - (m + 1) = e - m := by omega
      set lcor := sk.askCorrectRangeParity s m with hlcor
      set lcur := sk.computeRangeParity noisy s m with hlcur
      have hlcurM : lcur = noisyCount sk noisy s m % 2 := skComputeRangeParity_eq ..
      have hlcorM : lcor = correctCount sk s m % 2 := skAskCorrectRangeParity_eq ..
      by_cases herr : lcur = lcor
      · -- even errors on the left: descend right
        have hrc : pc ^^^ lcor = sk.askCorrectRangeParity (m + 1) e := by
          rw [hpc, hlcor]
          exact askCorrect_xor_left sk s e hse2
        have hoddR : noisyCount sk noisy (m + 1) e % 2
            ≠ correctCount sk (m + 1) e % 2 := by
          rw [noisyCount, correctCount, hlenR]
          rw [noisyCount, correctCount, hsplitN, hsplitC] at hodd
          rw [hlcurM, hlcorM] at herr
          rw [noisyCount, correctCount] at herr
          intro hx
          apply hodd
          omega
        obtain ⟨leaf, path, hres, hl1, hl2, hdiff, hpath⟩ :=
          ih (m + 1) e noisy (pc ^^^ lcor) (by omega) hrc hoddR
        refine ⟨leaf, ⟨m + 1, e, sk.computeRangeParity noisy (m + 1) e, pc ^^^ lcor⟩
          :: path, ?_, by omega, hl2, hdiff, ?_⟩
        · rw [binaryDescend, if_neg hbase]
          simp only [← hm, ← hlcor, ← hlcur, if_neg (not_not_intro herr)]
          rw [hres]
        · intro nd hnd
          rcases List.mem_cons.mp hnd with hnd | hnd
          · subst hnd
            dsimp only
            exact ⟨by omega, hl2, by omega, le_refl e, rfl, hrc⟩
          · obtain ⟨a1, a2, a3, a4, a5, a6⟩ := hpath nd hnd
            exact ⟨a1, a2, by omega, a4, a5, a6⟩
      · -- odd errors on the left: descend left
        have hoddL : noisyCount sk noisy s m % 2 ≠ correctCount sk s m % 2 := by
          rw [hlcurM, hlcorM] at herr
          exact herr
        obtain ⟨leaf, path, hres, hl1, hl2, hdiff, hpath⟩ :=
          ih s m noisy lcor (by omega) rfl hoddL
        refine ⟨leaf, ⟨s, m, lcur, lcor⟩ :: path, ?_, hl1, by omega, hdiff, ?_⟩
        · rw [binaryDescend, if_neg hbase]
          simp only [← hm, ← hlcor, ← hlcur, if_pos (by simpa using herr)]
          rw [hres]
        · intro nd hnd
          rcases List.mem_cons.mp hnd with hnd | hnd
          · subst hnd
            dsimp only
            exact ⟨hl1, hl2, le_refl s, by omega, rfl, rfl⟩
          · obtain ⟨a1, a2, a3, a4, a5, a6⟩ := hpath nd hnd
            refine ⟨a1, a2, by omega, ?_, a5, a6⟩
            have : nd.e ≤ m := a4
            omega

/-- Claim C1: on a top block whose cached current parity is the actual
parity of the noisy key over its range, whose correct parity is the
correct key's parity over the same range, and whose error parity is
true, `try_correct_block` flips exactly one bit of the noisy key (the
returned original-space index), and that bit differed from the correct
key before the flip. -/
theorem try_correct_block_spec (sk : SKey) (noisy : Key) (tb : TopBlock) (n : Nat)
    (hse : tb.startBit ≤ tb.endBit) (he : tb.endBit < n)
    (hmap : ∀ b, b < n → sk.shuffleToOrig b < n)
    (hwlen : n ≤ 64 * noisy.words.length)
    (hcur : tb.currentParity = some (sk.computeRangeParity noisy tb.startBit tb.endBit))
    (hcor : tb.correctParity = some (sk.askCorrectRangeParity tb.startBit tb.endBit))
    (herr : tb.currentParity ≠ tb.correctParity) :
    ∃ leaf path,
      tryCorrectBlock sk noisy tb
          = some (sk.flipBit noisy leaf, sk.shuffleToOrig leaf, path)
      ∧ tb.startBit ≤ leaf ∧ leaf ≤ tb.endBit
      ∧ (sk.flipBit noisy leaf).getBit (sk.shuffleToOrig leaf)
          = 1 - noisy.getBit (sk.shuffleToOrig leaf)
      ∧ (∀ i, i ≠ sk.shuffleToOrig leaf
          → (sk.flipBit noisy leaf).getBit i = noisy.getBit i)
      ∧ ¬ noisy.getBit (sk.shuffleToOrig leaf)
          = sk.correctKey.getBit (sk.shuffleToOrig leaf) := by
  have hodd : noisyCount sk noisy tb.startBit tb.endBit % 2
      ≠ correctCount sk tb.startBit tb.endBit % 2 := by
    rw [hcur, hcor] at herr
    intro hx
    apply herr
    rw [skComputeRangeParity_eq, skAskCorrectRangeParity_eq, hx]
  obtain ⟨leaf, path, hres, h1, h2, hdiff, hpath⟩ :=
    binaryDescend_ok sk (tb.endBit - tb.startBit + 1) tb.startBit tb.endBit noisy
      (sk.askCorrectRangeParity tb.startBit tb.endBit) (by omega) rfl hodd
  have hleafn : leaf < n := by omega
  have hbound : sk.shuffleToOrig leaf / 64 < noisy.words.length := by
    have := hmap leaf hleafn
    omega
  refine ⟨leaf, path, ?_, h1, h2, ?_, ?_, hdiff⟩
  · rw [tryCorrectBlock, hcor, hres]
  · exact getBit_flipBit_self noisy _ hbound
  · intro i hi
    exact getBit_flipBit_ne noisy _ i (fun hx => hi hx)

/-- Shuffled key for the C1, C4 and C2 witnesses: four-bit correct key
`1010`, identity shuffle. -/
def skV : SKey := ⟨Key.fromBits [1, 0, 1, 0], fun b => b⟩

/-- Noisy key for the witnesses: `1110`, differing from the correct key
in bit 1. -/
def noisyV : Key := Key.fromBits [1, 1, 1, 0]

/-- Top block covering bits `0..=1` with exact parity caches. -/
def tbV : TopBlock :=
  ⟨0, 1, some (skV.computeRangeParity noisyV 0 1), some (skV.askCorrectRangeParity 0 1)⟩

/-- Witness for C1 on the two-bit block `0..=1` of the four-bit keys. -/
theorem try_correct_block_spec_witness :
    (tbV.startBit ≤ tbV.endBit ∧ tbV.endBit < 4 ∧ 4 ≤ 64 * noisyV.words.length
      ∧ tbV.currentParity ≠ tbV.correctParity)
  ∧ (∃ leaf path,
      tryCorrectBlock skV noisyV tbV
          = some (skV.flipBit noisyV leaf, skV.shuffleToOrig leaf, path)
      ∧ tbV.startBit ≤ leaf ∧ leaf ≤ tbV.endBit
      ∧ (skV.flipBit noisyV leaf).getBit (skV.shuffleToOrig leaf)
          = 1 - noisyV.getBit (skV.shuffleToOrig leaf)
      ∧ (∀ i, i ≠ skV.shuffleToOrig leaf
          → (skV.flipBit noisyV leaf).getBit i = noisyV.getBit i)
      ∧ ¬ noisyV.getBit (skV.shuffleToOrig leaf)
          = skV.correctKey.getBit (skV.shuffleToOrig leaf)) :=
  ⟨⟨by decide, by decide, by decide, by decide⟩,
    try_correct_block_spec skV noisyV tbV 4 (by decide) (by decide)
      (fun b hb => hb) (by decide) rfl rfl (by decide)⟩

/-- Flipping a noisy bit inside a shuffled range flips the range's
parity (the shuffle must be injective below `n` so that exactly one
position of the range reads the flipped original bit). -/
theorem computeRangeParity_flip_in (sk : SKey) (noisy : Key) (s e b n : Nat)
    (hs : s ≤ b) (hbe : b ≤ e) (he : e < n)
    (hmap : ∀ x, x < n → sk.shuffleToOrig x < n)
    (hinj : ∀ x y, x < n → y < n → sk.shuffleToOrig x = sk.shuffleToOrig y → x = y)
    (hwlen : n ≤ 64 * noisy.words.length) :
    sk.computeRangeParity (sk.flipBit noisy b) s e
      = 1 - sk.computeRangeParity noisy s e := by
  have hbn : b < n := by omega
  have hbound : sk.shuffleToOrig b / 64 < noisy.words.length := by
    have := hmap b hbn
    omega
  have hflip := getBit_flipBit_self noisy (sk.shuffleToOrig b) hbound
  have hlt := getBit_lt_two noisy (sk.shuffleToOrig b)
  have hagree : ∀ x, x ≠ b → s ≤ x → x < s + (e + 1 - s) →
      (decide ((sk.flipBit noisy b).getBit (sk.shuffleToOrig x) = 1))
        = (decide (noisy.getBit (sk.shuffleToOrig x) = 1)) := by
    intro x hx _ hxe
    have hxn : x < n := by omega
    have hne : sk.shuffleToOrig x ≠ sk.shuffleToOrig b :=
      fun hcol => hx (hinj x b hxn hbn hcol)
    rw [SKey.flipBit, getBit_flipBit_ne noisy _ _ hne]
  rw [skComputeRangeParity_eq, skComputeRangeParity_eq]
  by_cases hbit : noisy.getBit (sk.shuffleToOrig b) = 1
  · -- the flipped position drops out of the count
    have hstep := countP_flip_at s (e + 1 - s) b hs (by omega)
      (fun x => decide ((sk.flipBit noisy b).getBit (sk.shuffleToOrig x) = 1))
      (fun x => decide (noisy.getBit (sk.shuffleToOrig x) = 1))
      hagree
      (by simp only [SKey.flipBit]; simp only [hflip]; simp [hbit])
      (by simp [hbit])
    simp only [noisyCount]
    simp only [noisyCount] at hstep
    omega
  · -- the flipped position enters the count
    have hstep := countP_flip_at s (e + 1 - s) b hs (by omega)
      (fun x => decide (noisy.getBit (sk.shuffleToOrig x) = 1))
      (fun x => decide ((sk.flipBit noisy b).getBit (sk.shuffleToOrig x) = 1))
      (fun x hx h1 h2 => (hagree x hx h1 h2).symm)
      (by simp [hbit])
      (by
        have h0 : noisy.getBit (sk.shuffleToOrig b) = 0 := by omega
        simp only [SKey.flipBit]
        simp only [hflip]
        simp [h0])
    simp only [noisyCount]
    simp only [noisyCount] at hstep
    omega

/-- Flipping a noisy bit outside a shuffled range leaves the range's
parity unchanged. -/
theorem computeRangeParity_flip_out (sk : SKey) (noisy : Key) (s e b n : Nat)
    (hout : b < s ∨ e < b) (he : e < n) (hbn : b < n)
    (hmap : ∀ x, x < n → sk.shuffleToOrig x < n)
    (hinj : ∀ x y, x < n → y < n → sk.shuffleToOrig x = sk.shuffleToOrig y → x = y) :
    sk.computeRangeParity (sk.flipBit noisy b) s e
      = sk.computeRangeParity noisy s e := by
  rw [skComputeRangeParity_eq, skComputeRangeParity_eq, noisyCount, noisyCount]
  congr 1
  refine List.countP_congr (fun x hx => ?_)
  have hx2 := List.mem_range'_1.mp hx
  have hxn : x < n := by omega
  have hxb : x ≠ b := by omega
  have hne : sk.shuffleToOrig x ≠ sk.shuffleToOrig b :=
    fun hcol => hxb (hinj x b hxn hbn hcol)
  simp only [SKey.flipBit]
  simp only [getBit_flipBit_ne noisy (sk.shuffleToOrig b) (sk.shuffleToOrig x) hne]

/-- Claim C4: after `try_correct_block` on a top block (odd error
parity, exact correct parity, current-parity cache empty or exact),
every ancestor of the corrected leaf — the top block and every block of
the descent path — whose current parity is cached ends up, after the
single XOR-with-1 flip of `flip_parity_upstream` (modelled by
`flipCurrentParity`, with no recomputation from the key), holding
exactly the actual parity of the mutated noisy key over its range. -/
theorem flip_parity_upstream_spec (sk : SKey) (noisy : Key) (tb : TopBlock) (n : Nat)
    (hse : tb.startBit ≤ tb.endBit) (he : tb.endBit < n)
    (hmap : ∀ b, b < n → sk.shuffleToOrig b < n)
    (hinj : ∀ x y, x < n → y < n → sk.shuffleToOrig x = sk.shuffleToOrig y → x = y)
    (hwlen : n ≤ 64 * noisy.words.length)
    (hcur : tb.currentParity = none
      ∨ tb.currentParity = some (sk.computeRangeParity noisy tb.startBit tb.endBit))
    (hcor : tb.correctParity = some (sk.askCorrectRangeParity tb.startBit tb.endBit))
    (hodd : noisyCount sk noisy tb.startBit tb.endBit % 2
      ≠ correctCount sk tb.startBit tb.endBit % 2) :
    ∃ leaf path,
      tryCorrectBlock sk noisy tb
          = some (sk.flipBit noisy leaf, sk.shuffleToOrig leaf, path)
      ∧ (∀ q, flipCurrentParity tb.currentParity = some q →
            q = sk.computeRangeParity (sk.flipBit noisy leaf) tb.startBit tb.endBit)
      ∧ (∀ nd ∈ path,
            flipCurrentParity (some nd.cur) = some (1 - nd.cur)
            ∧ 1 - nd.cur = sk.computeRangeParity (sk.flipBit noisy leaf) nd.s nd.e) := by
  obtain ⟨leaf, path, hres, h1, h2, hdiff, hpath⟩ :=
    binaryDescend_ok sk (tb.endBit - tb.startBit + 1) tb.startBit tb.endBit noisy
      (sk.askCorrectRangeParity tb.startBit tb.endBit) (by omega) rfl hodd
  refine ⟨leaf, path, ?_, ?_, ?_⟩
  · rw [tryCorrectBlock, hcor, hres]
  · intro q hq
    rcases hcur with hnone | hsome
    · rw [hnone] at hq
      exact absurd hq (by simp [flipCurrentParity])
    · rw [hsome] at hq
      simp only [flipCurrentParity] at hq
      have hq2 := Option.some.inj hq
      rw [← hq2, computeRangeParity_flip_in sk noisy tb.startBit tb.endBit leaf n h1 h2
        he hmap hinj hwlen]
  · intro nd hnd
    obtain ⟨a1, a2, a3, a4, hcurEq, hcorEq⟩ := hpath nd hnd
    refine ⟨rfl, ?_⟩
    rw [hcurEq, computeRangeParity_flip_in sk noisy nd.s nd.e leaf n a1 a2
      (by omega) hmap hinj hwlen]

/-- Witness for C4 on the two-bit block `0..=1` of the four-bit keys. -/
theorem flip_parity_upstream_spec_witness :
    (tbV.startBit ≤ tbV.endBit ∧ tbV.endBit < 4
      ∧ 4 ≤ 64 * noisyV.words.length
      ∧ noisyCount skV noisyV tbV.startBit tbV.endBit % 2
          ≠ correctCount skV tbV.startBit tbV.endBit % 2)
  ∧ (∃ leaf path,
      tryCorrectBlock skV noisyV tbV
          = some (skV.flipBit noisyV leaf, skV.shuffleToOrig leaf, path)
      ∧ (∀ q, flipCurrentParity tbV.currentParity = some q →
            q = skV.computeRangeParity (skV.flipBit noisyV leaf) tbV.startBit tbV.endBit)
      ∧ (∀ nd ∈ path,
            flipCurrentParity (some nd.cur) = some (1 - nd.cur)
            ∧ 1 - nd.cur
              = skV.computeRangeParity (skV.flipBit noisyV leaf) nd.s nd.e)) :=
  ⟨⟨by decide, by decide, by decide, by decide⟩,
    flip_parity_upstream_spec skV noisyV tbV 4 (by decide) (by decide)
      (fun b hb => hb) (fun x y _ _ hxy => hxy) (by decide) (Or.inr rfl) rfl (by decide)⟩

/-! ### `Iteration::schedule_top_block_correct_task` (correctOnePass) -/

/-- One pass over the top blocks: for each block, `get_error_parity`
(which panics — `none` — when the correct parity is unknown, and
computes the current parity when it is not cached), and on odd error
parity run the BINARY loop and record the corrected original-space bit
index.  Corrections mutate the shared noisy key, so the key is threaded
through the pass. -/
def correctOnePass (sk : SKey) : List TopBlock → Key → Option (Key × List Nat)
  | [], noisy => some (noisy, [])
  | tb :: rest, noisy =>
    match tb.correctParity with
    | none => none
    | some cor =>
      let cur := tb.currentParity.getD (sk.computeRangeParity noisy tb.startBit tb.endBit)
      if cur ≠ cor then
        match binaryDescend sk (tb.endBit - tb.startBit + 1) noisy tb.startBit tb.endBit
            (some cor) with
        | none => none
        | some (noisy2, leaf, _path) =>
          match correctOnePass sk rest noisy2 with
          | none => none
          | some (noisyF, bits) => some (noisyF, sk.shuffleToOrig leaf :: bits)
      else
        correctOnePass sk rest noisy

/-- Claim C2, amended: a pass over top blocks with exact correct
parities, current-parity caches that are either empty or exact, valid
pairwise-disjoint ranges and an injective shuffle succeeds, and the
Hamming distance to the correct key drops by exactly the number of
returned original-space indices (strict decrease exactly when the list
is nonempty). -/
theorem correct_one_pass_spec (sk : SKey) (n : Nat)
    (hmap : ∀ b, b < n → sk.shuffleToOrig b < n)
    (hinj : ∀ x y, x < n → y < n → sk.shuffleToOrig x = sk.shuffleToOrig y → x = y) :
    ∀ (blocks : List TopBlock) (noisy : Key),
    n ≤ 64 * noisy.words.length →
    (∀ tb ∈ blocks, tb.startBit ≤ tb.endBit ∧ tb.endBit < n) →
    (∀ tb ∈ blocks, tb.correctParity
        = some (sk.askCorrectRangeParity tb.startBit tb.endBit)) →
    (∀ tb ∈ blocks, tb.currentParity = none
        ∨ tb.currentParity = some (sk.computeRangeParity noisy tb.startBit tb.endBit)) →
    List.Pairwise (fun t1 t2 => t1.endBit < t2.startBit ∨ t2.endBit < t1.startBit)
      blocks →
    ∃ (noisyF : Key) (bits : List Nat),
      correctOnePass sk blocks noisy = some (noisyF, bits)
      ∧ hammingDist n sk.correctKey noisyF + bits.length
          = hammingDist n sk.correctKey noisy
      ∧ noisyF.words.length = noisy.words.length := by
  intro blocks
  induction blocks with
  | nil =>
    intro noisy _ _ _ _ _
    exact ⟨noisy, [], rfl, by simp, rfl⟩
  | cons tb rest ih =>
    intro noisy hwlen hranges hcors hcurs hdisj
    have hmem : tb ∈ tb :: rest := List.mem_cons_self tb rest
    obtain ⟨hs1, hs2⟩ := hranges tb hmem
    have hcor := hcors tb hmem
    have hcurval : tb.currentParity.getD (sk.computeRangeParity noisy tb.startBit tb.endBit)
        = sk.computeRangeParity noisy tb.startBit tb.endBit := by
      rcases hcurs tb hmem with hnone | hsome
      · rw [hnone]; rfl
      · rw [hsome]; rfl
    obtain ⟨hhd, htl⟩ := List.pairwise_cons.mp hdisj
    by_cases hcmp : sk.computeRangeParity noisy tb.startBit tb.endBit
        = sk.askCorrectRangeParity tb.startBit tb.endBit
    · -- even error parity: the block is skipped
      obtain ⟨noisyF, bits, hrec, hham, hlen⟩ := ih noisy hwlen
        (fun t ht => hranges t (List.mem_cons_of_mem tb ht))
        (fun t ht => hcors t (List.mem_cons_of_mem tb ht))
        (fun t ht => hcurs t (List.mem_cons_of_mem tb ht)) htl
      refine ⟨noisyF, bits, ?_, hham, hlen⟩
      simp only [correctOnePass]
      rw [hcor]
      dsimp only
      rw [hcurval, if_neg (not_not_intro hcmp)]
      exact hrec
    · -- odd error parity: BINARY corrects one erroneous bit
      have hodd : noisyCount sk noisy tb.startBit tb.endBit % 2
          ≠ correctCount sk tb.startBit tb.endBit % 2 := by
        intro hx
        apply hcmp
        rw [skComputeRangeParity_eq, skAskCorrectRangeParity_eq, hx]
      obtain ⟨leaf, path, hres, h1, h2, hdiff, _⟩ :=
        binaryDescend_ok sk (tb.endBit - tb.startBit + 1) tb.startBit tb.endBit noisy
          (sk.askCorrectRangeParity tb.startBit tb.endBit) (by omega) rfl hodd
      have hleafn : leaf < n := by omega
      have hπleaf : sk.shuffleToOrig leaf < n := hmap leaf hleafn
      have hbound : sk.shuffleToOrig leaf / 64 < noisy.words.length := by omega
      have hlen2 : (sk.flipBit noisy leaf).words.length = noisy.words.length :=
        flipBit_words_length noisy _
      -- caches of the remaining blocks stay exact: their ranges are
      -- disjoint from the corrected block, so the flip leaves their
      -- parities untouched
      have hcurs2 : ∀ t ∈ rest, t.currentParity = none
          ∨ t.currentParity
            = some (sk.computeRangeParity (sk.flipBit noisy leaf) t.startBit t.endBit) := by
        intro t ht
        rcases hcurs t (List.mem_cons_of_mem tb ht) with hnone | hsome
        · exact Or.inl hnone
        · refine Or.inr ?_
          rw [hsome]
          obtain ⟨ht1, ht2⟩ := hranges t (List.mem_cons_of_mem tb ht)
          have hout : leaf < t.startBit ∨ t.endBit < leaf := by
            rcases hhd t ht with hcase | hcase
            · left; omega
            · right; omega
          rw [computeRangeParity_flip_out sk noisy t.startBit t.endBit leaf n hout ht2
            hleafn hmap hinj]
      obtain ⟨noisyF, bits, hrec, hham, hlenF⟩ := ih (sk.flipBit noisy leaf)
        (by rw [hlen2]; exact hwlen)
        (fun t ht => hranges t (List.mem_cons_of_mem tb ht))
        (fun t ht => hcors t (List.mem_cons_of_mem tb ht))
        hcurs2 htl
      refine ⟨noisyF, sk.shuffleToOrig leaf :: bits, ?_, ?_, by rw [hlenF, hlen2]⟩
      · simp only [correctOnePass]
        rw [hcor]
        dsimp only
        rw [hcurval, if_pos hcmp, hres]
        dsimp only
        rw [hrec]
      · have hstep := hammingDist_flip n sk.correctKey noisy (sk.shuffleToOrig leaf)
          hπleaf (fun hx => hdiff hx.symm) hbound
        simp only [SKey.flipBit] at hham
        simp only [List.length_cons]
        omega

/-- Two-bit shuffled key for the C2 counterexample: correct and noisy
keys identical. -/
def sk0 : SKey := ⟨Key.fromBits [1, 0], fun b => b⟩

/-- The noisy key of the C2 counterexample (equal to the correct key). -/
def noisy0 : Key := Key.fromBits [1, 0]

/-- The single top block of the C2 counterexample, holding the exact
correct parity of its range. -/
def tb0 : TopBlock := ⟨0, 1, none, some (sk0.askCorrectRangeParity 0 1)⟩

/-- Claim C2, counterexample to the unconditional strict decrease: with
identical two-bit keys and one top block over `0..=1` holding the exact
correct parity, `correctOnePass` succeeds, corrects nothing, and the
Hamming distance (zero) does not strictly decrease. -/
theorem correct_one_pass_no_strict_decrease :
    correctOnePass sk0 [tb0] noisy0 = some (noisy0, [])
  ∧ ¬ hammingDist 2 sk0.correctKey noisy0 < hammingDist 2 sk0.correctKey noisy0 :=
  ⟨rfl, by omega⟩

/-- The two top blocks tiling the four-bit witness keys, fresh caches
and exact correct parities. -/
def blocksV : List TopBlock :=
  [⟨0, 1, none, some (skV.askCorrectRangeParity 0 1)⟩,
   ⟨2, 3, none, some (skV.askCorrectRangeParity 2 3)⟩]

/-- Witness for the amended C2 on the four-bit keys with one error. -/
theorem correct_one_pass_spec_witness :
    4 ≤ 64 * noisyV.words.length
  ∧ (∃ (noisyF : Key) (bits : List Nat),
      correctOnePass skV blocksV noisyV = some (noisyF, bits)
      ∧ hammingDist 4 skV.correctKey noisyF + bits.length
          = hammingDist 4 skV.correctKey noisyV
      ∧ noisyF.words.length = noisyV.words.length) :=
  ⟨by decide, correct_one_pass_spec skV 4 (fun b hb => hb) (fun x y _ _ h => h)
    blocksV noisyV (by decide) (by decide) (by decide) (by decide) (by decide)⟩

end Cascade
